import Mathlib

/-!
Verification of the dftracer-utils splitting core against its specification.

The C++ sources are shallowly embedded as Lean definitions:
pure functions become Lean functions, the stream state machines become
explicit state-passing functions, `std::size_t` values become `Nat`
(no overflow is reachable in the modelled paths), `double` values are
modelled as exact rationals, and fallible code returns `Except`.
Loops are compiled to structural recursion on an explicit fuel argument;
every theorem that depends on a loop's completion carries a fuel bound
that is provably sufficient for the loop's measure.
-/

namespace DFTracer

/-! ## Decompressed content and line decomposition

The archive's decompressed content is a list of bytes (modelled as
characters); lines are terminated by a newline character (spec section 3.1).
-/

/-- Decompose content into lines paired with the byte offset at which each
line starts.  `acc` is the partial current line, `start` its start offset.
A final unterminated line is kept.  This mirrors the line scanning used
throughout the code base (`memchr` for a newline, line includes its
newline). -/
def linesGo : List Char → Nat → List Char → List (Nat × List Char)
  | [], start, acc => if acc.isEmpty then [] else [(start, acc)]
  | c :: rest, start, acc =>
      if c = '\n' then (start, acc ++ [c]) :: linesGo rest (start + acc.length + 1) []
      else linesGo rest start (acc ++ [c])

/-- Lines of the decompressed content, each paired with its starting byte
offset. -/
def linesWithStarts (content : List Char) : List (Nat × List Char) :=
  linesGo content 0 []

/-- Plain line splitting (each line includes its terminating newline; a
final unterminated line is kept). -/
def splitLinesGo : List Char → List Char → List (List Char)
  | [], acc => if acc.isEmpty then [] else [acc]
  | c :: rest, acc =>
      if c = '\n' then (acc ++ [c]) :: splitLinesGo rest []
      else splitLinesGo rest (acc ++ [c])

/-- The lines of the whole decompressed file. -/
def splitLines (content : List Char) : List (List Char) :=
  splitLinesGo content []

/-- Modelled from the spec: the `LINE_BYTES` byte-range alignment performed
by the gzip reader's `read_line_bytes_with_processor`, whose implementation
is not under `src/` (only its declaration in `reader.h` and its callers
are).  Spec section 4.3.2: for a byte range `[start, end)` a line `L` is
emitted iff `L`'s starting byte `s` satisfies `start <= s < end` and `s` is
a genuine line start (offset `0` or preceded by a newline); partial leading
lines are skipped and the trailing line is emitted in full when it starts
inside the range. -/
def emitLineBytes (content : List Char) (startByte endByte : Nat) : List (List Char) :=
  ((linesWithStarts content).filter
      (fun pr => decide (startByte ≤ pr.1) && decide (pr.1 < endByte))).map Prod.snd

/-- Concatenation of the `LineBytes` emissions over the consecutive byte
ranges determined by the boundary list `bs` (range `i` is
`[bs[i], bs[i+1])`). -/
def segEmitLineBytes (content : List Char) : List Nat → List (List Char)
  | [] => []
  | [_] => []
  | a :: b :: rest => emitLineBytes content a b ++ segEmitLineBytes content (b :: rest)

/-! ## IndexedFileBytesIterator
(`src/include/dftracer/utils/components/io/lines/sources/indexed_file_bytes_iterator.h`) -/

/-- State of an `IndexedFileBytesIterator`: the lines pre-loaded during
construction (each with its 1-based collector line number) and the cursor. -/
structure IndexedFileBytesIteratorState where
  startByte : Nat
  endByte : Nat
  lines : List (Nat × List Char)
  currentIndex : Nat
  deriving DecidableEq, Repr

/-- `IndexedFileBytesIterator::load_lines`: collect all aligned lines of the
byte range, numbering them from 1 (the `LineCollector`'s counter). -/
def loadLines (content : List Char) (startByte endByte : Nat) : List (Nat × List Char) :=
  (emitLineBytes content startByte endByte).enum.map (fun pr => (pr.1 + 1, pr.2))

/-- The `IndexedFileBytesIterator` constructor: rejects `start_byte >=
end_byte` with `invalid_argument`, otherwise pre-loads the lines of the
range.  (The null-reader check is not modelled; the reader is the
`content`.) -/
def mkIndexedFileBytesIterator (content : List Char) (startByte endByte : Nat) :
    Except String IndexedFileBytesIteratorState :=
  if startByte ≥ endByte then Except.error "Invalid byte range"
  else Except.ok ⟨startByte, endByte, loadLines content startByte endByte, 0⟩

/-! ## LineStream
(`src/src/dftracer/utils/reader/streams/line_stream.h`)

The wrapper's state machine is embedded field by field.  The underlying
`LINE_BYTES` stream (whose byte-level implementation is not under `src/`)
is modelled from the spec as the list `chunks` of the payloads returned by
its successive `read` calls; it is `done` exactly when no chunk remains.
`read_buffer_[buffer_pos_ .. buffer_size_)` is the list `buf`,
`current_line_` together with `output_position_` is the `pending` option
(holding the not-yet-output tail of the line when `has_pending_line_`),
and the 1 MiB capacity of `read_buffer_` is abstracted as unbounded. -/

/-- The mutable state of a `LineStream`. -/
structure LSState where
  chunks : List (List Char)
  buf : List Char
  lineAcc : List Char
  pending : Option (List Char)
  isFinished : Bool
  currentLineNumber : Nat
  startLine : Nat
  endLine : Nat
  deriving DecidableEq, Repr

/-- `LineStream::is_beyond_range`. -/
def LSState.isBeyondRange (s : LSState) : Bool :=
  decide (s.endLine > 0) && decide (s.currentLineNumber > s.endLine)

/-- `LineStream::should_output_current_line`. -/
def LSState.shouldOutputCurrentLine (s : LSState) : Bool :=
  if s.startLine = 0 ∧ s.endLine = 0 then true
  else
    (decide (s.startLine = 0) || decide (s.startLine ≤ s.currentLineNumber)) &&
    (decide (s.endLine = 0) || decide (s.currentLineNumber ≤ s.endLine))

/-- Loop measure: unconsumed bytes plus number of remaining underlying
chunks.  Every iteration of the stream loops strictly decreases it, so it
bounds the fuel the loops need. -/
def LSState.measureF (s : LSState) : Nat :=
  s.buf.length + (s.chunks.map List.length).sum + s.chunks.length

/-- The loop of `LineStream::try_direct_output`: skip filtered lines and
copy the first complete line of the range directly to the caller's buffer
when it fits (`w` is the caller's buffer capacity).  Returns 0 bytes when
the slow path is needed. -/
def tdoLoop (w : Nat) : Nat → LSState → Nat × List Char × LSState
  | 0, s => (0, [], s)
  | fuel + 1, s =>
    if s.isBeyondRange then (0, [], { s with isFinished := true })
    else
      match s.buf with
      | [] =>
          match s.chunks with
          | [] => (0, [], s)
          | c :: rest =>
              if c.isEmpty then (0, [], { s with buf := c, chunks := rest })
              else tdoLoop w fuel { s with buf := c, chunks := rest }
      | b :: bs =>
          match List.findIdx? (fun ch => ch = '\n') (b :: bs) with
          | none => (0, [], s)
          | some i =>
              let lineLen := i + 1
              if lineLen > w then (0, [], s)
              else
                let shouldOut := s.shouldOutputCurrentLine
                if s.isBeyondRange then (0, [], { s with isFinished := true })
                else
                  let s2 := { s with currentLineNumber := s.currentLineNumber + 1 }
                  if shouldOut then
                    (lineLen, (b :: bs).take lineLen,
                      { s2 with buf := (b :: bs).drop lineLen })
                  else tdoLoop w fuel { s2 with buf := (b :: bs).drop lineLen }

/-- `LineStream::try_direct_output`: the fast path requires no accumulated
data. -/
def tryDirectOutput (w : Nat) (s : LSState) : Nat × List Char × LSState :=
  if s.lineAcc.isEmpty then tdoLoop w (s.measureF + 1) s
  else (0, [], s)

/-- The end-of-stream handling of `LineStream::parse_next_line`: a final
line accumulated without a trailing newline. -/
def parseEofFinal (s : LSState) : Bool × LSState :=
  if s.chunks.isEmpty ∧ ¬ s.lineAcc.isEmpty then
    let cur := s.lineAcc
    let s1 := { s with lineAcc := [] }
    if s1.shouldOutputCurrentLine ∧ ¬ s1.isBeyondRange then
      (true, { s1 with pending := some cur, currentLineNumber := s1.currentLineNumber + 1 })
    else (false, { s1 with isFinished := true })
  else (false, { s with isFinished := true })

/-- The refill/scan loop of `LineStream::parse_next_line`, with
`process_complete_line` inlined: build the next complete line (using the
accumulator when it is nonempty), store it as pending when it is in range,
skip it otherwise; past the end of the range the remaining input is
consumed with `is_finished_` set. -/
def parseLoop : Nat → LSState → Bool × LSState
  | 0, s => (false, s)
  | fuel + 1, s =>
    match s.buf with
    | [] =>
        match s.chunks with
        | [] => parseEofFinal s
        | c :: rest =>
            if c.isEmpty then parseEofFinal { s with buf := c, chunks := rest }
            else parseLoop fuel { s with buf := c, chunks := rest }
    | b :: bs =>
        match List.findIdx? (fun ch => ch = '\n') (b :: bs) with
        | none => parseLoop fuel { s with lineAcc := s.lineAcc ++ (b :: bs), buf := [] }
        | some i =>
            let cur := if s.lineAcc.isEmpty then (b :: bs).take i ++ ['\n']
                       else s.lineAcc ++ (b :: bs).take i ++ ['\n']
            let s2 := { s with buf := (b :: bs).drop (i + 1), lineAcc := [] }
            let shouldOut := s2.shouldOutputCurrentLine
            if s2.isBeyondRange then parseLoop fuel { s2 with isFinished := true }
            else
              let s3 := { s2 with currentLineNumber := s2.currentLineNumber + 1 }
              if shouldOut then (true, { s3 with pending := some cur })
              else parseLoop fuel s3

/-- `LineStream::parse_next_line`. -/
def parseNextLine (s : LSState) : Bool × LSState :=
  if s.isBeyondRange then (false, { s with isFinished := true })
  else parseLoop (s.measureF + 1) s

/-- `LineStream::output_pending_line`: copy as much of the pending line as
fits in the caller's buffer, retaining the remainder; clear the pending
flag once the line is fully output. -/
def outputPendingLine (s : LSState) (rest : List Char) (w : Nat) :
    Nat × List Char × LSState :=
  if rest.isEmpty then (0, [], { s with pending := none })
  else
    let k := min rest.length w
    let out := rest.take k
    let restAfter := rest.drop k
    if restAfter.isEmpty then (k, out, { s with pending := none })
    else (k, out, { s with pending := some restAfter })

/-- `LineStream::read(char*, size_t)` with a buffer of capacity `w`: the
result is (bytes written, the bytes themselves, the state after the
call). -/
def lsRead (s : LSState) (w : Nat) : Nat × List Char × LSState :=
  match s.pending with
  | some rest => outputPendingLine s rest w
  | none =>
    if s.isFinished then (0, [], s)
    else
      let r := tryDirectOutput w s
      if r.1 > 0 then r
      else
        let pr := parseNextLine r.2.2
        if pr.1 then
          match pr.2.pending with
          | some rest => outputPendingLine pr.2 rest w
          | none => (0, [], pr.2)
        else (0, [], pr.2)

/-- `LineStream::done()`: `is_finished_ && !has_pending_line_`. -/
def lsDone (s : LSState) : Bool := s.isFinished && s.pending.isNone

/-- The state built by the `LineStream` constructor. -/
def lsInit (chunks : List (List Char)) (startLine endLine initialLine : Nat) : LSState :=
  ⟨chunks, [], [], none, false, initialLine, startLine, endLine⟩

/-- Drive `read` with buffer capacity `w`, collecting the bytes of each
call, until a call returns 0 (or the fuel runs out). -/
def readAll (w : Nat) : LSState → Nat → List (List Char)
  | _, 0 => []
  | s, fuel + 1 =>
      let r := lsRead s w
      if r.1 = 0 then [] else r.2.1 :: readAll w r.2.2 fuel

/-- Exactly `k` successive `read` calls with buffer capacity `w`,
concatenating the returned bytes. -/
def drainN (w : Nat) : LSState → Nat → List Char
  | _, 0 => []
  | s, k + 1 =>
      let r := lsRead s w
      r.2.1 ++ drainN w r.2.2 k

/-! ## MultiLineStream
(`src/src/dftracer/utils/reader/streams/multi_line_stream.h`)

Embedded with the same conventions as `LineStream`. -/

/-- The mutable state of a `MultiLineStream`. -/
structure MLSState where
  chunks : List (List Char)
  buf : List Char
  lineAcc : List Char
  isFinished : Bool
  currentLine : Nat
  startLine : Nat
  endLine : Nat
  linesOutput : Nat
  deriving DecidableEq, Repr

/-- `SIZE_MAX` on a 64-bit platform. -/
def sizeMax : Nat := 2 ^ 64 - 1

/-- `MultiLineStream::reached_end_of_range`. -/
def MLSState.reachedEndOfRange (s : MLSState) : Bool :=
  decide (s.endLine > 0) && decide (s.currentLine > s.endLine)

/-- `MultiLineStream::is_line_in_output_range`. -/
def MLSState.isLineInOutputRange (s : MLSState) : Bool :=
  decide (s.startLine ≤ s.currentLine) &&
  (decide (s.endLine = 0) || decide (s.currentLine ≤ s.endLine))

/-- `MultiLineStream::calculate_max_lines`. -/
def MLSState.calculateMaxLines (s : MLSState) : Nat :=
  if s.endLine > 0 ∧ s.startLine > 0 then s.endLine - s.startLine + 1 else sizeMax

/-- The underlying stream's `done()`. -/
def MLSState.underlyingDone (s : MLSState) : Bool := s.chunks.isEmpty

/-- `MultiLineStream::should_continue_reading`. -/
def mlsShouldContinue (s : MLSState) (maxLines : Nat) : Bool :=
  !s.underlyingDone && !s.reachedEndOfRange && decide (s.linesOutput < maxLines)

/-- `MultiLineStream::process_buffer_lines` with `try_output_line` inlined:
scan the buffer for complete lines, emit the in-range ones that fit
(`w` is the caller's buffer capacity, `bw`/`out` the bytes written so
far), skip filtered ones, and stop when the caller's buffer is full (the
partial line is kept in the accumulator and, as in the source, the buffer
position is not advanced). -/
def mlsProcessBufferLines (w maxLines : Nat) : Nat → MLSState → Nat → List Char →
    Bool × MLSState × Nat × List Char
  | 0, s, bw, out => (false, s, bw, out)
  | fuel + 1, s, bw, out =>
    match s.buf with
    | [] => (true, s, bw, out)
    | b :: bs =>
        match List.findIdx? (fun ch => ch = '\n') (b :: bs) with
        | none => (true, { s with lineAcc := s.lineAcc ++ (b :: bs), buf := [] }, bw, out)
        | some i =>
            let lineLen := i
            let inRange := s.isLineInOutputRange
            let canOutput := decide (s.linesOutput < maxLines)
            if inRange && canOutput then
              if s.lineAcc.isEmpty then
                if bw + lineLen + 1 > w then
                  (false, { s with lineAcc := (b :: bs).take i }, bw, out)
                else
                  let s1 := { s with buf := (b :: bs).drop (i + 1), currentLine := s.currentLine + 1, linesOutput := s.linesOutput + 1 }
                  let bw1 := bw + lineLen + 1
                  let out1 := out ++ (b :: bs).take i ++ ['\n']
                  if s1.linesOutput ≥ maxLines then
                    (false, { s1 with isFinished := true }, bw1, out1)
                  else mlsProcessBufferLines w maxLines fuel s1 bw1 out1
              else
                let acc1 := s.lineAcc ++ (b :: bs).take i
                if bw + acc1.length + 1 > w then
                  (false, { s with lineAcc := acc1 }, bw, out)
                else
                  let s1 := { s with lineAcc := [], buf := (b :: bs).drop (i + 1), currentLine := s.currentLine + 1, linesOutput := s.linesOutput + 1 }
                  let bw1 := bw + acc1.length + 1
                  let out1 := out ++ acc1 ++ ['\n']
                  if s1.linesOutput ≥ maxLines then
                    (false, { s1 with isFinished := true }, bw1, out1)
                  else mlsProcessBufferLines w maxLines fuel s1 bw1 out1
            else if s.reachedEndOfRange then (false, { s with isFinished := true }, bw, out)
            else
              let s1 := { s with lineAcc := [], buf := (b :: bs).drop (i + 1), currentLine := s.currentLine + 1 }
              if s1.linesOutput ≥ maxLines then
                (false, { s1 with isFinished := true }, bw, out)
              else mlsProcessBufferLines w maxLines fuel s1 bw out

/-- The main loop of `MultiLineStream::read`: refill and process while the
stream should continue and the caller's buffer is not full. -/
def mlsReadLoop (w maxLines : Nat) : Nat → MLSState → Nat → List Char →
    MLSState × Nat × List Char
  | 0, s, bw, out => (s, bw, out)
  | fuel + 1, s, bw, out =>
    if mlsShouldContinue s maxLines ∧ bw < w then
      match s.buf with
      | [] =>
          match s.chunks with
          | [] => (s, bw, out)
          | c :: rest =>
              if c.isEmpty then ({ s with buf := c, chunks := rest }, bw, out)
              else
                let s1 := { s with buf := c, chunks := rest }
                let r := mlsProcessBufferLines w maxLines (s1.buf.length + 1) s1 bw out
                if r.1 then mlsReadLoop w maxLines fuel r.2.1 r.2.2.1 r.2.2.2
                else (r.2.1, r.2.2.1, r.2.2.2)
      | _ :: _ =>
          let r := mlsProcessBufferLines w maxLines (s.buf.length + 1) s bw out
          if r.1 then mlsReadLoop w maxLines fuel r.2.1 r.2.2.1 r.2.2.2
          else (r.2.1, r.2.2.1, r.2.2.2)
    else (s, bw, out)

/-- `MultiLineStream::handle_final_line`. -/
def mlsHandleFinalLine (w maxLines : Nat) (s : MLSState) (bw : Nat) (out : List Char) :
    MLSState × Nat × List Char :=
  if ¬ s.underlyingDone ∨ s.lineAcc.isEmpty ∨ ¬ s.isLineInOutputRange ∨
      s.linesOutput ≥ maxLines then
    (s, bw, out)
  else
    let len := s.lineAcc.length
    if bw + len ≤ w then
      ({ s with lineAcc := [], linesOutput := s.linesOutput + 1 }, bw + len,
        out ++ s.lineAcc)
    else (s, bw, out)

/-- `MultiLineStream::update_finish_state`. -/
def mlsUpdateFinishState (maxLines : Nat) (s : MLSState) : MLSState :=
  if s.underlyingDone ∨ s.reachedEndOfRange ∨ s.linesOutput ≥ maxLines then
    { s with isFinished := true }
  else s

/-- `MultiLineStream::read(char*, size_t)` with a buffer of capacity `w`. -/
def mlsRead (s : MLSState) (w : Nat) : Nat × List Char × MLSState :=
  if s.isFinished then (0, [], s)
  else
    let maxLines := s.calculateMaxLines
    let r := mlsReadLoop w maxLines (s.chunks.length + 2) s 0 []
    let r2 := mlsHandleFinalLine w maxLines r.1 r.2.1 r.2.2
    let s' := mlsUpdateFinishState maxLines r2.1
    (r2.2.1, r2.2.2, s')

/-- `MultiLineStream::done()`. -/
def mlsDone (s : MLSState) : Bool :=
  s.isFinished || (s.underlyingDone && s.lineAcc.isEmpty)

/-- The state built by the `MultiLineStream` constructor. -/
def mlsInit (chunks : List (List Char)) (startLine endLine initialLine : Nat) : MLSState :=
  ⟨chunks, [], [], false, initialLine, startLine, endLine, 0⟩

/-! ## EventId and the chunk verifier
(`src/include/dftracer/utils/components/workflows/dft/event_collector.h`,
`src/include/dftracer/utils/components/workflows/chunk_verifier.h`) -/

/-- `EventId { id, pid, tid }`, signed 64-bit integers in the source. -/
structure EventId where
  id : Int
  pid : Int
  tid : Int
  deriving DecidableEq, Repr

/-- `EventId::operator<`: lexicographic by `(id, pid, tid)`. -/
def EventId.ltb (a b : EventId) : Bool :=
  if a.id ≠ b.id then decide (a.id < b.id)
  else if a.pid ≠ b.pid then decide (a.pid < b.pid)
  else decide (a.tid < b.tid)

/-- `EventId::is_valid`: `id >= 0`. -/
def EventId.is_valid (e : EventId) : Bool := decide (e.id ≥ 0)

/-- Insert an event into a list sorted by `EventId::operator<`. -/
def insertEvent (e : EventId) : List EventId → List EventId
  | [] => [e]
  | x :: xs => if EventId.ltb e x then e :: x :: xs else x :: insertEvent e xs

/-- `std::sort` over `EventId::operator<`, modelled as insertion sort. -/
def sortEvents : List EventId → List EventId
  | [] => []
  | x :: xs => insertEvent x (sortEvents xs)

/-- `VerificationResult` (chunk_verifier.h). -/
structure VerificationResult where
  passed : Bool
  input_hash : Nat
  output_hash : Nat
  error_message : String
  deriving DecidableEq, Repr

/-- `VerificationResult::success`. -/
def VerificationResult.mkSuccess (ih oh : Nat) : VerificationResult :=
  ⟨true, ih, oh, ""⟩

/-- `VerificationResult::failure`. -/
def VerificationResult.mkFailure (ih oh : Nat) (err : String) : VerificationResult :=
  ⟨false, ih, oh, err⟩

/-- `ChunkVerifier::process`: compute the input hash from the metadata,
collect the events of every chunk (in chunk order), sort them with
`EventId::operator<`, hash, and pass iff the two hashes are equal.  The
hash functions and the per-chunk event collector are the constructor
parameters of the template. -/
def chunkVerifierProcess {C M : Type} (inputHasher : List M → Nat)
    (eventCollector : C → List EventId) (eventHasher : List EventId → Nat)
    (chunks : List C) (metadata : List M) : VerificationResult :=
  let input_hash := inputHasher metadata
  let output_events := (chunks.map eventCollector).flatten
  let sorted := sortEvents output_events
  let output_hash := eventHasher sorted
  if input_hash = output_hash then VerificationResult.mkSuccess input_hash output_hash
  else VerificationResult.mkFailure input_hash output_hash
    "Hash mismatch: input and output events differ"

/-! ## Chunk extraction
(`src/src/dftracer/utils/components/workflows/dft/chunk_extractor.cpp`) -/

/-- `DFTracerChunkExtractionResult` (floats kept as exact rationals). -/
structure DFTChunkExtractionResult where
  chunk_index : Nat
  output_path : String
  size_mb : Rat
  events : Nat
  success : Bool
  deriving DecidableEq, Repr

/-- File-system effects performed by the extractor on its output file. -/
inductive FileOp where
  | openOutput (path : String)
  | writeData (path : String) (data : List Char)
  | removeFile (path : String)
  deriving DecidableEq, Repr

/-- Output path convention: `<output_dir>/<app_name>-<chunk_index>.pfw`. -/
def outputPathOf (outputDir appName : String) (chunkIndex : Nat) : String :=
  outputDir ++ "/" ++ appName ++ "-" ++ toString chunkIndex ++ ".pfw"

/-- Extraction input (`DFTracerChunkExtractionInput`; the manifest is
abstracted to the lines its specs deliver and its total size). -/
structure ExtractionInput where
  chunk_index : Nat
  output_dir : String
  app_name : String
  manifest_size_mb : Rat
  deriving Repr

/-- Environment of one extraction run: the lines delivered by the manifest's
ranges, the JSON validator, whether the output file can be opened, and the
index of the line before which an unrecoverable exception (e.g. a zlib
failure) is raised, if any. -/
structure ExtractionEnv where
  lines : List (List Char)
  jv : List Char → Option (List Char)
  canOpen : Bool
  failAt : Option Nat

/-- The per-line loop of `extract_and_write`: validate each line with
`json_trim_and_validate`, keep it only when validation succeeds and the
trimmed text is longer than 8 bytes, write the trimmed bytes plus a
newline, and count it.  An exception before line `i` aborts with the trace
of effects performed so far. -/
def writeEventsGo (p : String) (jv : List Char → Option (List Char))
    (failAt : Option Nat) : List (List Char) → Nat → Nat → List FileOp →
    Except (List FileOp) (Nat × List FileOp)
  | [], _, count, tr => Except.ok (count, tr)
  | l :: rest, i, count, tr =>
      if failAt = some i then Except.error tr
      else
        match jv l with
        | some t =>
            if t.length > 8 then
              writeEventsGo p jv failAt rest (i + 1) (count + 1)
                (tr ++ [FileOp.writeData p (t ++ ['\n'])])
            else writeEventsGo p jv failAt rest (i + 1) count tr
        | none => writeEventsGo p jv failAt rest (i + 1) count tr

/-- `DFTracerChunkExtractor::extract_and_write`: open the output file (an
early `success=false` result when that fails), write the JSON array
delimiters around the validated lines, and return the result with
`success=true`.  An escaping exception carries the effect trace performed
so far.  (Hash-state bookkeeping and the optional gzip re-compression do
not affect the claims and are omitted.) -/
def extract_and_write (input : ExtractionInput) (env : ExtractionEnv) :
    Except (List FileOp) (DFTChunkExtractionResult × List FileOp) :=
  let p := outputPathOf input.output_dir input.app_name input.chunk_index
  if env.canOpen = false then
    Except.ok (⟨input.chunk_index, p, 0, 0, false⟩, [])
  else
    let tr0 := [FileOp.openOutput p, FileOp.writeData p ['[', '\n']]
    match writeEventsGo p env.jv env.failAt env.lines 0 0 tr0 with
    | Except.error tr => Except.error tr
    | Except.ok (count, tr) =>
        Except.ok (⟨input.chunk_index, p, input.manifest_size_mb, count, true⟩,
          tr ++ [FileOp.writeData p ['\n', ']', '\n']])

/-- `DFTracerChunkExtractor::process`: delegate to `extract_and_write`; a
caught exception produces a `success=false` result with the output path
recomputed, and performs no further file operations (in particular no
removal). -/
def chunkExtractorProcess (input : ExtractionInput) (env : ExtractionEnv) :
    DFTChunkExtractionResult × List FileOp :=
  match extract_and_write input env with
  | Except.ok r => r
  | Except.error tr =>
      (⟨input.chunk_index,
        outputPathOf input.output_dir input.app_name input.chunk_index, 0, 0, false⟩, tr)

/-! ## The three JSON keep/drop sites
(`chunk_extractor.cpp`, `metadata_collector.cpp`, `event_collector.cpp`) -/

/-- The extractor's keep condition (chunk_extractor.cpp):
`json_trim_and_validate(...) && trimmed_length > 8`. -/
def extractorKeepsLine (jv : List Char → Option (List Char)) (l : List Char) : Bool :=
  match jv l with
  | some t => decide (t.length > 8)
  | none => false

/-- The metadata collector's counting loop
(`DFTracerMetadataCollector::process_compressed`): accumulate
`(total_bytes, valid_events)` over the lines, counting a line only when
`json_trim_and_validate` accepts it and the trimmed text is longer than 8
bytes. -/
def metadataCollectorCounts (jv : List Char → Option (List Char))
    (lines : List (List Char)) : Nat × Nat :=
  lines.foldl
    (fun acc l =>
      match jv l with
      | some t => if t.length > 8 then (acc.1 + l.length, acc.2 + 1) else acc
      | none => acc)
    (0, 0)

/-- `EventIdCollector::process` for one line (event_collector.cpp): skip the
line when `json_trim_and_validate` rejects it or the trimmed text is at
most 8 bytes; otherwise parse it (the yyjson document/field reading is the
abstract `pe`) and keep the event only when `is_valid()`. -/
def eventIdCollectorLine (jv : List Char → Option (List Char))
    (pe : List Char → Option EventId) (l : List Char) : Option EventId :=
  match jv l with
  | none => none
  | some t =>
      if t.length ≤ 8 then none
      else
        match pe t with
        | none => none
        | some e => if e.is_valid then some e else none

/-! ## Split CLI exit code
(`src/src/dftracer/utils/binaries/dftracer_split.cpp`, end of `main`) -/

/-- The tail of `main` in dftracer_split.cpp: count the successful chunks;
when `--verify` was requested the verifier runs and its pass/fail is
printed, but the returned exit code is
`successful_chunks == results.size() ? 0 : 1` regardless of
`verificationPassed`. -/
def splitExitCode (results : List DFTChunkExtractionResult)
    (verifyRequested verificationPassed : Bool) : Nat :=
  let successfulChunks := (results.filter (fun r => r.success)).length
  let _ := verifyRequested
  let _ := verificationPassed
  if successfulChunks = results.length then 0 else 1

/-! ## Reader::estimate_lines_in_range
(`src/include/dftracer/utils/reader/reader.h`, lines 83-91) -/

/-- `end_bytes - start_bytes` in `std::size_t` arithmetic: subtraction
modulo `2^64`. -/
def sizeSub (endBytes startBytes : Nat) : Nat :=
  (((endBytes : Int) - (startBytes : Int)) % (2 ^ 64 : Int)).toNat

/-! The `double` arithmetic of the estimator is modelled bit-exactly as
IEEE-754 binary64: a non-negative double is a dyadic `m * 2^e` with a
53-bit mantissa, and every cast, division and multiplication rounds to
nearest with ties to even.  The estimator's intermediate values always
lie far inside the normal range (between about `2^-117` and `2^131`), so
subnormals, overflow and NaN never arise and are not modelled. -/

/-- Fuel-driven `⌊log₂⌋` on naturals (fuel `n` itself always suffices). -/
def log2F : Nat → Nat → Nat
  | 0, _ => 0
  | fuel + 1, n => if 2 ≤ n then log2F fuel (n / 2) + 1 else 0

/-- `⌊log₂ n⌋` for `n ≥ 1` (and `0` at `0`). -/
def nlog2 (n : Nat) : Nat := log2F n n

/-- A non-negative binary64 value `m * 2^e`: zero (`m = 0`) or normalised
with `2^52 ≤ m < 2^53`. -/
structure Dyadic where
  m : Nat
  e : Int
  deriving DecidableEq, Repr

/-- The double `+0.0`. -/
def Dyadic.zero : Dyadic := ⟨0, 0⟩

/-- The rational value of a dyadic (for specification and proofs). -/
def Dyadic.toQ (x : Dyadic) : ℚ := (x.m : ℚ) * 2 ^ x.e

/-- Decides `2^k ≤ a / b` for naturals `a, b ≥ 1` and an integer `k`. -/
def pow2LeRat (k : Int) (a b : Nat) : Bool :=
  if 0 ≤ k then decide (b * 2 ^ k.toNat ≤ a) else decide (b ≤ a * 2 ^ (-k).toNat)

/-- `⌊log₂ (a / b)⌋` for `a, b ≥ 1`: `nlog2 a - nlog2 b`, corrected down
by one when that overestimates. -/
def qlog2 (a b : Nat) : Int :=
  if pow2LeRat ((nlog2 a : Int) - (nlog2 b : Int)) a b
  then (nlog2 a : Int) - (nlog2 b : Int)
  else (nlog2 a : Int) - (nlog2 b : Int) - 1

/-- Round `num / den` to the nearest integer, ties to even. -/
def rne (num den : Nat) : Nat :=
  let q := num / den
  let r := num % den
  if 2 * r < den then q
  else if den < 2 * r then q + 1
  else if q % 2 = 0 then q else q + 1

/-- Round the positive rational `a / b` to the nearest binary64 value
(ties to even): scale `a / b` into `[2^52, 2^53)`, round the mantissa,
and fold the possible carry to `2^53` into the exponent. -/
def dRound (a b : Nat) : Dyadic :=
  let k := qlog2 a b
  let m0 := if 0 ≤ 52 - k then rne (a * 2 ^ (52 - k).toNat) b
            else rne a (b * 2 ^ (k - 52).toNat)
  if m0 = 2 ^ 53 then ⟨2 ^ 52, k - 51⟩ else ⟨m0, k - 52⟩

/-- `static_cast<double>` of a `std::size_t` value. -/
def dOfNat (n : Nat) : Dyadic := if n = 0 then Dyadic.zero else dRound n 1

/-- binary64 multiplication (round to nearest, ties to even). -/
def dMul (x y : Dyadic) : Dyadic :=
  if x.m = 0 ∨ y.m = 0 then Dyadic.zero
  else
    let d := dRound (x.m * y.m) 1
    ⟨d.m, d.e + x.e + y.e⟩

/-- binary64 division (round to nearest, ties to even). -/
def dDiv (x y : Dyadic) : Dyadic :=
  if x.m = 0 then Dyadic.zero
  else
    let d := dRound x.m y.m
    ⟨d.m, d.e + x.e - y.e⟩

/-- The binary64 literal `1.1`: the decimal constant rounded to nearest. -/
def dLit11 : Dyadic := dRound 11 10

/-- `static_cast<std::size_t>` of a non-negative double: truncation toward
zero. -/
def dTrunc (x : Dyadic) : Nat :=
  if 0 ≤ x.e then x.m * 2 ^ x.e.toNat else x.m / 2 ^ (-x.e).toNat

/-- `Reader::estimate_lines_in_range`: `0` when `max_bytes == 0`, otherwise
`static_cast<std::size_t>(byte_range * lines_per_byte * 1.1)` with every
step in binary64, where `lines_per_byte` is the double quotient
`num_lines / max_bytes` and `byte_range` the double cast of
`end_bytes - start_bytes`. -/
def estimate_lines_in_range (numLines maxBytes startBytes endBytes : Nat) : Nat :=
  if maxBytes = 0 then 0
  else
    let lines_per_byte := dDiv (dOfNat numLines) (dOfNat maxBytes)
    let byte_range := dOfNat (sizeSub endBytes startBytes)
    dTrunc (dMul (dMul byte_range lines_per_byte) dLit11)

/-- The spec's wording for the same function: `ceil((end - start) *
num_lines / max_bytes * 1.1)`.  Stated only for comparison with
`estimate_lines_in_range`. -/
def estimateLinesInRangeSpecCeil (numLines maxBytes startBytes endBytes : Nat) : Nat :=
  if maxBytes = 0 then 0
  else Nat.ceil ((sizeSub endBytes startBytes : Rat) *
    ((numLines : Rat) / (maxBytes : Rat)) * (11 / 10))

/-! ## Claim C3 -/

/-- Claim C3: for every verification input, the verifier's result has
`passed = true` iff the hash computed from the input metadata equals the
hash computed from the output chunks' events after the aggregated events
are sorted with `EventId::operator<`; both hashes are returned in the
result unchanged. -/
theorem c3_verifier_passes_iff_hashes_equal {C M : Type} (inputHasher : List M → Nat)
    (eventCollector : C → List EventId) (eventHasher : List EventId → Nat)
    (chunks : List C) (metadata : List M) :
    ((chunkVerifierProcess inputHasher eventCollector eventHasher chunks metadata).passed = true ↔
      inputHasher metadata =
        eventHasher (sortEvents ((chunks.map eventCollector).flatten))) ∧
    (chunkVerifierProcess inputHasher eventCollector eventHasher chunks metadata).input_hash =
      inputHasher metadata ∧
    (chunkVerifierProcess inputHasher eventCollector eventHasher chunks metadata).output_hash =
      eventHasher (sortEvents ((chunks.map eventCollector).flatten)) := by
  refine ⟨?_, ?_⟩
  · unfold chunkVerifierProcess
    dsimp only
    split_ifs with h
    · simpa [VerificationResult.mkSuccess] using h
    · simpa [VerificationResult.mkFailure] using h
  · unfold chunkVerifierProcess
    dsimp only
    split_ifs <;> simp [VerificationResult.mkSuccess, VerificationResult.mkFailure]

/-! ## Claim C4 -/

/-- A successfully produced chunk used in the C4 counterexample. -/
def c4OkChunk : DFTChunkExtractionResult := ⟨1, "split/app-1.pfw", 1, 5, true⟩

/-- Claim C4 counterexample: with every chunk successful, `--verify`
requested and the verification hash comparison FAILED, `main` still exits
with code 0 — the claim requires a non-zero exit code here. -/
theorem c4_counterexample : splitExitCode [c4OkChunk] true false = 0 := by decide

/-- Claim C4 amended: the split CLI's final exit code is 0 iff every
produced chunk has `success = true`; the `--verify` outcome is printed but
does not influence the exit code. -/
theorem c4_exit_code_iff_all_chunks_succeed (results : List DFTChunkExtractionResult)
    (verifyRequested verificationPassed : Bool) :
    splitExitCode results verifyRequested verificationPassed = 0 ↔
      ∀ r ∈ results, r.success = true := by
  unfold splitExitCode
  dsimp only
  split_ifs with h
  · simpa using (List.filter_length_eq_length.mp h)
  · constructor
    · intro h0
      exact absurd h0 (by norm_num)
    · intro hall
      exact absurd (List.filter_length_eq_length.mpr hall) h

/-! ## Claim C7

Auxiliary facts about the binary64 model: correctness of the integer
log₂, the half-ulp bound of round-to-nearest, the relative-error bound
`|fl(q) - q| ≤ q / 2^53` of every rounding step, exactness of the
`size_t → double` casts below `2^53`, and the floor bracketing of the
final `static_cast<std::size_t>`. -/

theorem log2F_correct : ∀ (fuel n : Nat), 1 ≤ n → n ≤ fuel →
    2 ^ log2F fuel n ≤ n ∧ n < 2 ^ (log2F fuel n + 1) := by
  intro fuel
  induction fuel with
  | zero =>
      intro n h1 h2
      omega
  | succ fuel ih =>
      intro n h1 h2
      rw [log2F]
      by_cases h : 2 ≤ n
      · rw [if_pos h]
        obtain ⟨hl, hr⟩ := ih (n / 2) (by omega) (by omega)
        rw [pow_succ] at hr
        constructor
        · rw [pow_succ]
          omega
        · rw [pow_succ, pow_succ]
          omega
      · rw [if_neg h]
        simp only [pow_zero, zero_add, pow_one]
        omega

theorem nlog2_le (n : Nat) (h : 1 ≤ n) : 2 ^ nlog2 n ≤ n :=
  (log2F_correct n n h le_rfl).1

theorem lt_nlog2 (n : Nat) (h : 1 ≤ n) : n < 2 ^ (nlog2 n + 1) :=
  (log2F_correct n n h le_rfl).2

theorem pow2LeRat_iff (k : Int) (a b : Nat) (hb : 1 ≤ b) :
    pow2LeRat k a b = true ↔ (2 : ℚ) ^ k ≤ (a : ℚ) / b := by
  have hb0 : (0 : ℚ) < b := by exact_mod_cast Nat.lt_of_lt_of_le Nat.zero_lt_one hb
  unfold pow2LeRat
  split_ifs with hk
  · have h2 : (2 : ℚ) ^ k = ((2 ^ k.toNat : ℕ) : ℚ) := by
      push_cast
      rw [← zpow_natCast (2 : ℚ) k.toNat, Int.toNat_of_nonneg hk]
    rw [decide_eq_true_eq, h2, le_div_iff₀ hb0]
    rw [show ((2 ^ k.toNat : ℕ) : ℚ) * (b : ℚ) = ((2 ^ k.toNat * b : ℕ) : ℚ) by push_cast; ring]
    rw [Nat.cast_le, Nat.mul_comm]
  · push_neg at hk
    set t := (-k).toNat with ht
    have hkt : (t : ℤ) = -k := Int.toNat_of_nonneg (by omega)
    have hk2 : k = -(t : ℤ) := by omega
    have h2 : (2 : ℚ) ^ k = ((2 ^ t : ℕ) : ℚ)⁻¹ := by
      rw [hk2, zpow_neg]
      congr 1
      push_cast
      rw [zpow_natCast]
    rw [decide_eq_true_eq, h2, inv_eq_one_div, div_le_div_iff₀ (by positivity) hb0, one_mul]
    rw [show (a : ℚ) * ((2 ^ t : ℕ) : ℚ) = ((a * 2 ^ t : ℕ) : ℚ) by push_cast; ring]
    rw [Nat.cast_le]

theorem qlog2_spec (a b : Nat) (ha : 1 ≤ a) (hb : 1 ≤ b) :
    (2 : ℚ) ^ qlog2 a b ≤ (a : ℚ) / b ∧ (a : ℚ) / b < 2 ^ (qlog2 a b + 1) := by
  have hb0 : (0 : ℚ) < b := by exact_mod_cast Nat.lt_of_lt_of_le Nat.zero_lt_one hb
  have hA2 : a < 2 ^ (nlog2 a + 1) := lt_nlog2 a ha
  have hB1 : 2 ^ nlog2 b ≤ b := nlog2_le b hb
  have hA1 : 2 ^ nlog2 a ≤ a := nlog2_le a ha
  have hB2 : b < 2 ^ (nlog2 b + 1) := lt_nlog2 b hb
  have hW1 : (a : ℚ) / b < 2 ^ ((nlog2 a : ℤ) - (nlog2 b : ℤ) + 1) := by
    rw [div_lt_iff₀ hb0]
    calc (a : ℚ) < ((2 ^ (nlog2 a + 1) : ℕ) : ℚ) := by exact_mod_cast hA2
      _ = 2 ^ ((nlog2 a : ℤ) - (nlog2 b : ℤ) + 1) * ((2 ^ nlog2 b : ℕ) : ℚ) := by
          push_cast
          rw [← zpow_natCast (2 : ℚ) (nlog2 a + 1), ← zpow_natCast (2 : ℚ) (nlog2 b),
            ← zpow_add₀ (two_ne_zero)]
          congr 1
          push_cast
          ring
      _ ≤ 2 ^ ((nlog2 a : ℤ) - (nlog2 b : ℤ) + 1) * (b : ℚ) := by
          have h1 : ((2 ^ nlog2 b : ℕ) : ℚ) ≤ (b : ℚ) := by exact_mod_cast hB1
          have h2 : (0 : ℚ) < 2 ^ ((nlog2 a : ℤ) - (nlog2 b : ℤ) + 1) := by positivity
          nlinarith
  have hW2 : (2 : ℚ) ^ ((nlog2 a : ℤ) - (nlog2 b : ℤ) - 1) < (a : ℚ) / b := by
    rw [lt_div_iff₀ hb0]
    calc (2 : ℚ) ^ ((nlog2 a : ℤ) - (nlog2 b : ℤ) - 1) * (b : ℚ)
        < 2 ^ ((nlog2 a : ℤ) - (nlog2 b : ℤ) - 1) * ((2 ^ (nlog2 b + 1) : ℕ) : ℚ) := by
          have h1 : (b : ℚ) < ((2 ^ (nlog2 b + 1) : ℕ) : ℚ) := by exact_mod_cast hB2
          have h2 : (0 : ℚ) < 2 ^ ((nlog2 a : ℤ) - (nlog2 b : ℤ) - 1) := by positivity
          nlinarith
      _ = ((2 ^ nlog2 a : ℕ) : ℚ) := by
          push_cast
          rw [← zpow_natCast (2 : ℚ) (nlog2 a), ← zpow_natCast (2 : ℚ) (nlog2 b + 1),
            ← zpow_add₀ (two_ne_zero)]
          congr 1
          push_cast
          ring
      _ ≤ (a : ℚ) := by exact_mod_cast hA1
  unfold qlog2
  split_ifs with h
  · exact ⟨(pow2LeRat_iff _ a b hb).mp h, hW1⟩
  · constructor
    · exact le_of_lt hW2
    · have hlt : (a : ℚ) / b < 2 ^ ((nlog2 a : ℤ) - (nlog2 b : ℤ)) := by
        by_contra hc
        push_neg at hc
        exact h ((pow2LeRat_iff _ a b hb).mpr hc)
      rw [show (nlog2 a : ℤ) - (nlog2 b : ℤ) - 1 + 1 = (nlog2 a : ℤ) - (nlog2 b : ℤ) by ring]
      exact hlt

theorem rne_one (num : Nat) : rne num 1 = num := by
  unfold rne
  simp [Nat.mod_one, Nat.div_one]

theorem rne_spec (num den : Nat) (hden : 1 ≤ den) :
    |(rne num den : ℚ) - (num : ℚ) / den| ≤ 1 / 2 := by
  have hq := Nat.div_add_mod num den
  have hrlt : num % den < den := Nat.mod_lt _ (by omega)
  have hden0 : (0 : ℚ) < den := by exact_mod_cast Nat.lt_of_lt_of_le Nat.zero_lt_one hden
  have hnum : (num : ℚ) = (den : ℚ) * (num / den : ℕ) + (num % den : ℕ) := by
    exact_mod_cast hq.symm
  have hx : (num : ℚ) / den = ((num / den : ℕ) : ℚ) + ((num % den : ℕ) : ℚ) / den := by
    rw [hnum]
    field_simp
    ring
  have hr0 : (0 : ℚ) ≤ ((num % den : ℕ) : ℚ) / den := by positivity
  unfold rne
  dsimp only
  split_ifs with h1 h2 h3
  · rw [hx, show ((num / den : ℕ) : ℚ) - (((num / den : ℕ) : ℚ) +
      ((num % den : ℕ) : ℚ) / den) = -(((num % den : ℕ) : ℚ) / den) by ring,
      abs_neg, abs_of_nonneg hr0, div_le_div_iff₀ hden0 (by norm_num), one_mul]
    have : (num % den) * 2 ≤ den := by omega
    exact_mod_cast this
  · have hhalf : 1 / 2 ≤ ((num % den : ℕ) : ℚ) / den := by
      rw [div_le_div_iff₀ (by norm_num) hden0, one_mul]
      have : den ≤ (num % den) * 2 := by omega
      exact_mod_cast this
    have hlt1 : ((num % den : ℕ) : ℚ) / den < 1 := by
      rw [div_lt_one hden0]
      exact_mod_cast hrlt
    rw [hx]
    push_cast
    rw [abs_of_nonneg (by linarith)]
    linarith
  · have hhalf : ((num % den : ℕ) : ℚ) / den = 1 / 2 := by
      have hd : (num % den) * 2 = den := by omega
      rw [div_eq_div_iff hden0.ne' (two_ne_zero), one_mul]
      exact_mod_cast hd
    rw [hx, show ((num / den : ℕ) : ℚ) - (((num / den : ℕ) : ℚ) +
      ((num % den : ℕ) : ℚ) / den) = -(((num % den : ℕ) : ℚ) / den) by ring,
      abs_neg, abs_of_nonneg hr0, hhalf]
  · have hhalf : ((num % den : ℕ) : ℚ) / den = 1 / 2 := by
      have hd : (num % den) * 2 = den := by omega
      rw [div_eq_div_iff hden0.ne' (two_ne_zero), one_mul]
      exact_mod_cast hd
    rw [hx]
    push_cast
    rw [show ((num / den : ℕ) : ℚ) + 1 - (((num / den : ℕ) : ℚ) +
      ((num % den : ℕ) : ℚ) / den) = 1 - ((num % den : ℕ) : ℚ) / den by ring,
      hhalf]
    rw [abs_le]
    constructor <;> norm_num

theorem zq52 : ((2 ^ 52 : ℕ) : ℚ) = (2 : ℚ) ^ (52 : ℤ) := by norm_num

theorem zq53 : ((2 ^ 53 : ℕ) : ℚ) = (2 : ℚ) ^ (53 : ℤ) := by norm_num

theorem dRound_eq (a b : Nat) :
    dRound a b = (if (if 0 ≤ 52 - qlog2 a b then rne (a * 2 ^ (52 - qlog2 a b).toNat) b
            else rne a (b * 2 ^ (qlog2 a b - 52).toNat)) = 2 ^ 53
      then (⟨2 ^ 52, qlog2 a b - 51⟩ : Dyadic)
      else ⟨(if 0 ≤ 52 - qlog2 a b then rne (a * 2 ^ (52 - qlog2 a b).toNat) b
            else rne a (b * 2 ^ (qlog2 a b - 52).toNat)), qlog2 a b - 52⟩) := rfl

theorem dRound_spec (a b : Nat) (ha : 1 ≤ a) (hb : 1 ≤ b) :
    |(dRound a b).toQ - (a : ℚ) / b| ≤ ((a : ℚ) / b) / 2 ^ 53 ∧ 1 ≤ (dRound a b).m := by
  obtain ⟨hk1, hk2⟩ := qlog2_spec a b ha hb
  have hb0 : (0 : ℚ) < b := by exact_mod_cast Nat.lt_of_lt_of_le Nat.zero_lt_one hb
  have ha0 : (0 : ℚ) < a := by exact_mod_cast Nat.lt_of_lt_of_le Nat.zero_lt_one ha
  have hab0 : (0 : ℚ) < (a : ℚ) / b := div_pos ha0 hb0
  set k := qlog2 a b with hk
  set X : ℚ := ((a : ℚ) / b) * 2 ^ (52 - k) with hX
  have hX1 : (2 : ℚ) ^ (52 : ℤ) ≤ X := by
    have hsplit : (2 : ℚ) ^ (52 : ℤ) = 2 ^ k * 2 ^ (52 - k) := by
      rw [← zpow_add₀ two_ne_zero]
      congr 1
      ring
    rw [hX, hsplit]
    exact mul_le_mul_of_nonneg_right hk1 (by positivity)
  have hX2 : X < (2 : ℚ) ^ (53 : ℤ) := by
    have hsplit : (2 : ℚ) ^ (53 : ℤ) = 2 ^ (k + 1) * 2 ^ (52 - k) := by
      rw [← zpow_add₀ two_ne_zero]
      congr 1
      ring
    rw [hX, hsplit]
    exact mul_lt_mul_of_pos_right hk2 (by positivity)
  set m0 := if 0 ≤ 52 - k then rne (a * 2 ^ (52 - k).toNat) b
            else rne a (b * 2 ^ (k - 52).toNat) with hm0
  have herr : |(m0 : ℚ) - X| ≤ 1 / 2 := by
    rw [hm0]
    split_ifs with hcase
    · have ht : ((52 - k).toNat : ℤ) = 52 - k := Int.toNat_of_nonneg hcase
      have hfrac : ((a * 2 ^ (52 - k).toNat : ℕ) : ℚ) / b = X := by
        rw [hX]
        push_cast
        rw [← zpow_natCast (2 : ℚ) (52 - k).toNat, ht]
        ring
      have h := rne_spec (a * 2 ^ (52 - k).toNat) b hb
      rw [hfrac] at h
      exact h
    · push_neg at hcase
      have ht : ((k - 52).toNat : ℤ) = k - 52 := Int.toNat_of_nonneg (by omega)
      have hbt : 1 ≤ b * 2 ^ (k - 52).toNat := by
        have h0 : 0 < b * 2 ^ (k - 52).toNat := by positivity
        omega
      have hfrac : (a : ℚ) / ((b * 2 ^ (k - 52).toNat : ℕ) : ℚ) = X := by
        rw [hX]
        push_cast
        rw [← zpow_natCast (2 : ℚ) (k - 52).toNat, ht,
          show (52 : ℤ) - k = -(k - 52) by ring, zpow_neg]
        have hz : ((2 : ℚ) ^ (k - 52) : ℚ) ≠ 0 := by positivity
        field_simp
      have h := rne_spec a (b * 2 ^ (k - 52).toNat) hbt
      rw [hfrac] at h
      exact h
  have habs := abs_le.mp herr
  have hm0ub : m0 ≤ 2 ^ 53 := by
    have h2 : (m0 : ℚ) < ((2 ^ 53 : ℕ) : ℚ) + 1 := by
      rw [zq53]
      linarith
    have h3 : m0 < 2 ^ 53 + 1 := by exact_mod_cast h2
    omega
  have hm0lb : 2 ^ 52 ≤ m0 := by
    have h2 : ((2 ^ 52 : ℕ) : ℚ) < (m0 : ℚ) + 1 := by
      rw [zq52]
      linarith
    have h3 : (2 ^ 52 : ℕ) < m0 + 1 := by exact_mod_cast h2
    omega
  have hval : (dRound a b).toQ = (m0 : ℚ) * 2 ^ (k - 52) ∧ 1 ≤ (dRound a b).m := by
    rw [dRound_eq, ← hk, ← hm0]
    by_cases hcarry : m0 = 2 ^ 53
    · rw [if_pos hcarry]
      constructor
      · show ((2 ^ 52 : ℕ) : ℚ) * 2 ^ (k - 51) = (m0 : ℚ) * 2 ^ (k - 52)
        rw [hcarry, zq52, zq53, ← zpow_add₀ (two_ne_zero : (2 : ℚ) ≠ 0),
          ← zpow_add₀ (two_ne_zero : (2 : ℚ) ≠ 0)]
        congr 1
        ring
      · show 1 ≤ 2 ^ 52
        norm_num
    · rw [if_neg hcarry]
      exact ⟨rfl, by show 1 ≤ m0; omega⟩
  refine ⟨?_, hval.2⟩
  have hXab : X * 2 ^ (k - 52) = (a : ℚ) / b := by
    rw [hX, mul_assoc, ← zpow_add₀ two_ne_zero,
      show 52 - k + (k - 52) = 0 by ring, zpow_zero, mul_one]
  have hdiff : (dRound a b).toQ - (a : ℚ) / b = ((m0 : ℚ) - X) * 2 ^ (k - 52) := by
    rw [hval.1, ← hXab]
    ring
  rw [hdiff, abs_mul, abs_of_pos (show (0 : ℚ) < 2 ^ (k - 52) by positivity)]
  refine le_trans (mul_le_mul_of_nonneg_right herr (by positivity)) ?_
  have h1 : (1 / 2 : ℚ) * 2 ^ (k - 52) = 2 ^ (k - 53) := by
    rw [show k - 53 = (k - 52) + (-1) by ring, zpow_add₀ two_ne_zero, zpow_neg, zpow_one]
    ring
  rw [h1]
  have h2 : ((a : ℚ) / b) / 2 ^ 53 = ((a : ℚ) / b) * 2 ^ (-53 : ℤ) := by
    rw [show ((2 : ℚ) ^ (-53 : ℤ)) = 1 / 2 ^ 53 by norm_num]
    ring
  rw [h2, show k - 53 = k + (-53 : ℤ) by ring, zpow_add₀ two_ne_zero]
  exact mul_le_mul_of_nonneg_right hk1 (by positivity)

theorem dRound_one_exact (a : Nat) (ha : 1 ≤ a) (h53 : a < 2 ^ 53) :
    (dRound a 1).toQ = a := by
  obtain ⟨hk1, hk2⟩ := qlog2_spec a 1 ha le_rfl
  rw [Nat.cast_one, div_one] at hk1 hk2
  set k := qlog2 a 1 with hk
  have ha1 : (1 : ℚ) ≤ a := by exact_mod_cast ha
  have hk0 : 0 ≤ k := by
    by_contra hc
    push_neg at hc
    have h1 : (2 : ℚ) ^ (k + 1) ≤ 1 := zpow_le_one_of_nonpos₀ one_le_two (by omega)
    linarith
  have hk52 : k ≤ 52 := by
    by_contra hc
    push_neg at hc
    have h1 : (2 : ℚ) ^ (53 : ℤ) ≤ 2 ^ k := zpow_le_zpow_right₀ one_le_two (by omega)
    have h2 : (a : ℚ) < (2 : ℚ) ^ (53 : ℤ) := by
      rw [← zq53]
      exact_mod_cast h53
    linarith
  have hbranch : (0 : ℤ) ≤ 52 - k := by omega
  have hkt : ((k + 1).toNat : ℤ) = k + 1 := Int.toNat_of_nonneg (by omega)
  have hupN : a < 2 ^ ((k + 1).toNat) := by
    have hcast : ((2 ^ ((k + 1).toNat) : ℕ) : ℚ) = (2 : ℚ) ^ (k + 1) := by
      push_cast
      rw [← zpow_natCast (2 : ℚ) (k + 1).toNat, hkt]
    have h := hk2
    rw [← hcast] at h
    exact_mod_cast h
  have hm53 : a * 2 ^ ((52 - k).toNat) < 2 ^ 53 := by
    calc a * 2 ^ ((52 - k).toNat)
        < 2 ^ ((k + 1).toNat) * 2 ^ ((52 - k).toNat) :=
          Nat.mul_lt_mul_of_pos_right hupN (by positivity)
      _ = 2 ^ ((k + 1).toNat + (52 - k).toNat) := (pow_add 2 _ _).symm
      _ = 2 ^ 53 := by
          congr 1
          omega
  rw [dRound_eq, ← hk, if_pos hbranch, rne_one,
    if_neg (by omega : ¬ a * 2 ^ ((52 - k).toNat) = 2 ^ 53)]
  show ((a * 2 ^ ((52 - k).toNat) : ℕ) : ℚ) * 2 ^ (k - 52) = a
  push_cast
  rw [← zpow_natCast (2 : ℚ) (52 - k).toNat, Int.toNat_of_nonneg hbranch, mul_assoc,
    ← zpow_add₀ two_ne_zero, show 52 - k + (k - 52) = 0 by ring, zpow_zero, mul_one]

theorem dOfNat_toQ (n : Nat) (h : n < 2 ^ 53) : (dOfNat n).toQ = n := by
  unfold dOfNat
  split_ifs with h0
  · subst h0
    show ((0 : ℕ) : ℚ) * 2 ^ (0 : ℤ) = ((0 : ℕ) : ℚ)
    norm_num
  · exact dRound_one_exact n (by omega) h

theorem dOfNat_m (n : Nat) (h1 : 1 ≤ n) : 1 ≤ (dOfNat n).m := by
  unfold dOfNat
  rw [if_neg (by omega)]
  exact (dRound_spec n 1 h1 le_rfl).2

theorem Dyadic.toQ_pos (x : Dyadic) (h : 1 ≤ x.m) : 0 < x.toQ := by
  unfold Dyadic.toQ
  have h1 : (0 : ℚ) < x.m := by exact_mod_cast Nat.lt_of_lt_of_le Nat.zero_lt_one h
  exact mul_pos h1 (zpow_pos (by norm_num) _)

theorem dMul_spec (x y : Dyadic) (hx : 1 ≤ x.m) (hy : 1 ≤ y.m) :
    |(dMul x y).toQ - x.toQ * y.toQ| ≤ (x.toQ * y.toQ) / 2 ^ 53 ∧ 1 ≤ (dMul x y).m := by
  unfold dMul
  rw [if_neg (by omega)]
  dsimp only
  have hP : 1 ≤ x.m * y.m := by
    have := Nat.mul_le_mul hx hy
    simpa using this
  obtain ⟨herr, hm⟩ := dRound_spec (x.m * y.m) 1 hP le_rfl
  rw [Nat.cast_one, div_one] at herr
  refine ⟨?_, hm⟩
  show |((dRound (x.m * y.m) 1).m : ℚ) * 2 ^ ((dRound (x.m * y.m) 1).e + x.e + y.e) -
      x.toQ * y.toQ| ≤ (x.toQ * y.toQ) / 2 ^ 53
  have hsplit : ((dRound (x.m * y.m) 1).m : ℚ) * 2 ^ ((dRound (x.m * y.m) 1).e + x.e + y.e) =
      (dRound (x.m * y.m) 1).toQ * 2 ^ (x.e + y.e) := by
    unfold Dyadic.toQ
    rw [show (dRound (x.m * y.m) 1).e + x.e + y.e =
      (dRound (x.m * y.m) 1).e + (x.e + y.e) by ring, zpow_add₀ two_ne_zero, ← mul_assoc]
  have htarget : x.toQ * y.toQ = ((x.m * y.m : ℕ) : ℚ) * 2 ^ (x.e + y.e) := by
    unfold Dyadic.toQ
    push_cast
    rw [zpow_add₀ two_ne_zero]
    ring
  have hfac : (0 : ℚ) < 2 ^ (x.e + y.e) := zpow_pos (by norm_num) _
  rw [hsplit, htarget]
  calc |(dRound (x.m * y.m) 1).toQ * 2 ^ (x.e + y.e) -
        ((x.m * y.m : ℕ) : ℚ) * 2 ^ (x.e + y.e)|
      = |((dRound (x.m * y.m) 1).toQ - ((x.m * y.m : ℕ) : ℚ)) * 2 ^ (x.e + y.e)| := by
        rw [sub_mul]
    _ = |(dRound (x.m * y.m) 1).toQ - ((x.m * y.m : ℕ) : ℚ)| * |(2 : ℚ) ^ (x.e + y.e)| :=
        abs_mul _ _
    _ = |(dRound (x.m * y.m) 1).toQ - ((x.m * y.m : ℕ) : ℚ)| * 2 ^ (x.e + y.e) := by
        rw [abs_of_pos hfac]
    _ ≤ (((x.m * y.m : ℕ) : ℚ) / 2 ^ 53) * 2 ^ (x.e + y.e) :=
        mul_le_mul_of_nonneg_right herr (le_of_lt hfac)
    _ = (((x.m * y.m : ℕ) : ℚ) * 2 ^ (x.e + y.e)) / 2 ^ 53 := by ring

theorem dDiv_spec (x y : Dyadic) (hx : 1 ≤ x.m) (hy : 1 ≤ y.m) :
    |(dDiv x y).toQ - x.toQ / y.toQ| ≤ (x.toQ / y.toQ) / 2 ^ 53 ∧ 1 ≤ (dDiv x y).m := by
  unfold dDiv
  rw [if_neg (by omega)]
  dsimp only
  obtain ⟨herr, hm⟩ := dRound_spec x.m y.m hx hy
  refine ⟨?_, hm⟩
  show |((dRound x.m y.m).m : ℚ) * 2 ^ ((dRound x.m y.m).e + x.e - y.e) -
      x.toQ / y.toQ| ≤ (x.toQ / y.toQ) / 2 ^ 53
  have hsplit : ((dRound x.m y.m).m : ℚ) * 2 ^ ((dRound x.m y.m).e + x.e - y.e) =
      (dRound x.m y.m).toQ * 2 ^ (x.e - y.e) := by
    unfold Dyadic.toQ
    rw [show (dRound x.m y.m).e + x.e - y.e =
      (dRound x.m y.m).e + (x.e - y.e) by ring, zpow_add₀ two_ne_zero, ← mul_assoc]
  have hym : ((y.m : ℕ) : ℚ) ≠ 0 := by
    have : (0 : ℚ) < (y.m : ℚ) := by exact_mod_cast Nat.lt_of_lt_of_le Nat.zero_lt_one hy
    exact this.ne'
  have htarget : x.toQ / y.toQ = ((x.m : ℚ) / (y.m : ℚ)) * 2 ^ (x.e - y.e) := by
    unfold Dyadic.toQ
    rw [zpow_sub₀ two_ne_zero]
    have hzy : ((2 : ℚ) ^ y.e) ≠ 0 := (zpow_pos (by norm_num) _).ne'
    field_simp
  have hfac : (0 : ℚ) < 2 ^ (x.e - y.e) := zpow_pos (by norm_num) _
  rw [hsplit, htarget]
  calc |(dRound x.m y.m).toQ * 2 ^ (x.e - y.e) - ((x.m : ℚ) / y.m) * 2 ^ (x.e - y.e)|
      = |((dRound x.m y.m).toQ - (x.m : ℚ) / y.m) * 2 ^ (x.e - y.e)| := by
        rw [sub_mul]
    _ = |(dRound x.m y.m).toQ - (x.m : ℚ) / y.m| * |(2 : ℚ) ^ (x.e - y.e)| := abs_mul _ _
    _ = |(dRound x.m y.m).toQ - (x.m : ℚ) / y.m| * 2 ^ (x.e - y.e) := by
        rw [abs_of_pos hfac]
    _ ≤ (((x.m : ℚ) / y.m) / 2 ^ 53) * 2 ^ (x.e - y.e) :=
        mul_le_mul_of_nonneg_right herr (le_of_lt hfac)
    _ = (((x.m : ℚ) / y.m) * 2 ^ (x.e - y.e)) / 2 ^ 53 := by ring

theorem dTrunc_bounds (x : Dyadic) :
    (dTrunc x : ℚ) ≤ x.toQ ∧ x.toQ < dTrunc x + 1 := by
  unfold dTrunc Dyadic.toQ
  split_ifs with he
  · have hc : ((x.m * 2 ^ x.e.toNat : ℕ) : ℚ) = (x.m : ℚ) * 2 ^ x.e := by
      push_cast
      rw [← zpow_natCast (2 : ℚ) x.e.toNat, Int.toNat_of_nonneg he]
    constructor
    · exact le_of_eq hc
    · rw [hc]
      linarith
  · push_neg at he
    set t := (-x.e).toNat with ht
    have htt : (t : ℤ) = -x.e := Int.toNat_of_nonneg (by omega)
    have hval : (x.m : ℚ) * 2 ^ x.e = (x.m : ℚ) / ((2 ^ t : ℕ) : ℚ) := by
      rw [show x.e = -(t : ℤ) by omega, zpow_neg, div_eq_mul_inv]
      congr 1
      push_cast
      rw [zpow_natCast]
    rw [hval]
    have h2t : (0 : ℚ) < ((2 ^ t : ℕ) : ℚ) := by positivity
    constructor
    · rw [le_div_iff₀ h2t]
      rw [show ((x.m / 2 ^ t : ℕ) : ℚ) * ((2 ^ t : ℕ) : ℚ) =
        ((x.m / 2 ^ t * 2 ^ t : ℕ) : ℚ) by push_cast; ring, Nat.cast_le]
      exact Nat.div_mul_le_self x.m (2 ^ t)
    · rw [div_lt_iff₀ h2t]
      have hN : x.m < (x.m / 2 ^ t + 1) * 2 ^ t := by
        calc x.m = 2 ^ t * (x.m / 2 ^ t) + x.m % 2 ^ t := (Nat.div_add_mod _ _).symm
          _ < 2 ^ t * (x.m / 2 ^ t) + 2 ^ t := by
              have := Nat.mod_lt x.m (show 0 < 2 ^ t by positivity)
              omega
          _ = (x.m / 2 ^ t + 1) * 2 ^ t := by ring
      rw [show (((x.m / 2 ^ t : ℕ) : ℚ) + 1) * ((2 ^ t : ℕ) : ℚ) =
        (((x.m / 2 ^ t + 1) * 2 ^ t : ℕ) : ℚ) by push_cast; ring, Nat.cast_lt]
      exact hN

/-- Claim C7 amended: `estimate_lines_in_range` truncates toward zero
(it does not round up): for `max_bytes > 0`, a non-inverted in-bounds
byte range and inputs below `2^53` (so the `size_t → double` casts are
exact), the result `E` brackets the ideal value
`(end - start) * num_lines / max_bytes * 1.1` within one part in `2^50`:
`E * (max_bytes * 10 * 2^50) ≤ (end - start) * num_lines * 11 * (2^50 + 1)`
and `(end - start) * num_lines * 11 * (2^50 - 1) < (E + 1) * (max_bytes * 10 * 2^50)`
— i.e. `E` is the floor of a value within relative `2^-50` of the ideal,
never its ceiling (see the counterexample). -/
theorem c7_estimate_lines_truncates (n m s e : Nat) (hm : 0 < m) (hse : s ≤ e) (he : e < 2 ^ 64)
    (hn : n < 2 ^ 53) (hm53 : m < 2 ^ 53) (hB : e - s < 2 ^ 53) :
    estimate_lines_in_range n m s e * (m * 10 * 2 ^ 50) ≤
      (e - s) * n * 11 * (2 ^ 50 + 1) ∧
    (e - s) * n * 11 * (2 ^ 50 - 1) <
      (estimate_lines_in_range n m s e + 1) * (m * 10 * 2 ^ 50) := by
  have hsub : sizeSub e s = e - s := by
    unfold sizeSub
    omega
  have hEdef : estimate_lines_in_range n m s e =
      dTrunc (dMul (dMul (dOfNat (e - s)) (dDiv (dOfNat n) (dOfNat m))) dLit11) := by
    unfold estimate_lines_in_range
    rw [if_neg (by omega), hsub]
  have hM : 0 < m * 10 * 2 ^ 50 := Nat.mul_pos (Nat.mul_pos hm (by norm_num)) (by norm_num)
  by_cases hz : n = 0 ∨ e - s = 0
  · have hE0 : estimate_lines_in_range n m s e = 0 := by
      rw [hEdef]
      rcases hz with hz | hz <;>
        rw [hz] <;>
        simp [dOfNat, dDiv, dMul, dTrunc, Dyadic.zero]
    constructor
    · rw [hE0]
      simp
    · rw [hE0]
      rcases hz with hz | hz <;> rw [hz] <;> simpa using hM
  · push_neg at hz
    obtain ⟨hn1, hB1⟩ := hz
    have hXn : (dOfNat n).toQ = n := dOfNat_toQ n hn
    have hXm : (dOfNat m).toQ = m := dOfNat_toQ m hm53
    have hXB : (dOfNat (e - s)).toQ = (e - s : ℕ) := dOfNat_toQ (e - s) hB
    have hmn : 1 ≤ (dOfNat n).m := dOfNat_m n (by omega)
    have hmm : 1 ≤ (dOfNat m).m := dOfNat_m m (by omega)
    have hmB : 1 ≤ (dOfNat (e - s)).m := dOfNat_m (e - s) (by omega)
    have hnq : (0 : ℚ) < n := by exact_mod_cast Nat.pos_of_ne_zero hn1
    have hmq : (0 : ℚ) < m := by exact_mod_cast hm
    have hBq : (0 : ℚ) < ((e - s : ℕ) : ℚ) := by exact_mod_cast Nat.pos_of_ne_zero hB1
    set u : ℚ := 1 / 2 ^ 53 with hu
    have hu0 : (0 : ℚ) < u := by rw [hu]; norm_num
    have hu1 : (0 : ℚ) < 1 - u := by rw [hu]; norm_num
    have hup : (0 : ℚ) < 1 + u := by rw [hu]; norm_num
    set A : ℚ := (n : ℚ) / m with hA
    have hA0 : (0 : ℚ) < A := div_pos hnq hmq
    obtain ⟨hR, hRm⟩ := dDiv_spec (dOfNat n) (dOfNat m) hmn hmm
    rw [hXn, hXm] at hR
    set R := dDiv (dOfNat n) (dOfNat m) with hRdef
    have hRQ := abs_le.mp hR
    have hQA : (A / 2 ^ 53 : ℚ) = A * u := by rw [hu]; ring
    have hR2 : R.toQ ≤ A * (1 + u) := by
      have h := hRQ.2
      rw [← hA, hQA] at h
      linarith
    have hR1 : A * (1 - u) ≤ R.toQ := by
      have h := hRQ.1
      rw [← hA, hQA] at h
      linarith
    have hRpos : 0 < R.toQ := Dyadic.toQ_pos R hRm
    obtain ⟨hT, hTm⟩ := dMul_spec (dOfNat (e - s)) R hmB hRm
    rw [hXB] at hT
    set T := dMul (dOfNat (e - s)) R with hTdef
    have hTQ := abs_le.mp hT
    have hBR0 : (0 : ℚ) < ((e - s : ℕ) : ℚ) * R.toQ := mul_pos hBq hRpos
    have hQT : (((e - s : ℕ) : ℚ) * R.toQ / 2 ^ 53 : ℚ) = ((e - s : ℕ) : ℚ) * R.toQ * u := by
      rw [hu]; ring
    have hT2 : T.toQ ≤ ((e - s : ℕ) : ℚ) * R.toQ * (1 + u) := by
      have h := hTQ.2
      rw [hQT] at h
      linarith
    have hT1 : ((e - s : ℕ) : ℚ) * R.toQ * (1 - u) ≤ T.toQ := by
      have h := hTQ.1
      rw [hQT] at h
      linarith
    have hTpos : 0 < T.toQ := Dyadic.toQ_pos T hTm
    obtain ⟨hL0, hLm0⟩ := dRound_spec 11 10 (by norm_num) (by norm_num)
    have hLm : 1 ≤ dLit11.m := hLm0
    have hL : |dLit11.toQ - ((11 : ℕ) : ℚ) / ((10 : ℕ) : ℚ)| ≤
        (((11 : ℕ) : ℚ) / ((10 : ℕ) : ℚ)) / 2 ^ 53 := hL0
    have hL11 : ((11 : ℕ) : ℚ) / ((10 : ℕ) : ℚ) = (11 / 10 : ℚ) := by norm_num
    rw [hL11] at hL
    have hLQ := abs_le.mp hL
    have hQL : ((11 / 10 : ℚ) / 2 ^ 53 : ℚ) = (11 / 10 : ℚ) * u := by rw [hu]; ring
    have hL2 : dLit11.toQ ≤ (11 / 10 : ℚ) * (1 + u) := by
      have h := hLQ.2
      rw [hQL] at h
      linarith
    have hL1 : (11 / 10 : ℚ) * (1 - u) ≤ dLit11.toQ := by
      have h := hLQ.1
      rw [hQL] at h
      linarith
    have hLpos : 0 < dLit11.toQ := Dyadic.toQ_pos _ hLm
    obtain ⟨hV, hVm⟩ := dMul_spec T dLit11 hTm hLm
    set V := dMul T dLit11 with hVdef
    have hVQ := abs_le.mp hV
    have hQV : (T.toQ * dLit11.toQ / 2 ^ 53 : ℚ) = T.toQ * dLit11.toQ * u := by
      rw [hu]
      ring
    have hV2 : V.toQ ≤ T.toQ * dLit11.toQ * (1 + u) := by
      have h := hVQ.2
      rw [hQV] at h
      linarith
    have hV1 : T.toQ * dLit11.toQ * (1 - u) ≤ V.toQ := by
      have h := hVQ.1
      rw [hQV] at h
      linarith
    set ideal : ℚ := ((e - s : ℕ) : ℚ) * A * (11 / 10) with hideal
    have hideal0 : (0 : ℚ) < ideal := by
      rw [hideal]
      exact mul_pos (mul_pos hBq hA0) (by norm_num)
    have hVub : V.toQ ≤ ideal * (1 + u) ^ 4 := by
      have s1 : ((e - s : ℕ) : ℚ) * R.toQ ≤ ((e - s : ℕ) : ℚ) * (A * (1 + u)) :=
        mul_le_mul_of_nonneg_left hR2 (le_of_lt hBq)
      have s2 : T.toQ ≤ ((e - s : ℕ) : ℚ) * (A * (1 + u)) * (1 + u) :=
        le_trans hT2 (mul_le_mul_of_nonneg_right s1 (le_of_lt hup))
      have s3 : T.toQ * dLit11.toQ ≤
          (((e - s : ℕ) : ℚ) * (A * (1 + u)) * (1 + u)) * ((11 / 10 : ℚ) * (1 + u)) :=
        mul_le_mul s2 hL2 (le_of_lt hLpos)
          (le_of_lt (by positivity))
      have s4 : V.toQ ≤
          (((e - s : ℕ) : ℚ) * (A * (1 + u)) * (1 + u)) * ((11 / 10 : ℚ) * (1 + u)) *
            (1 + u) :=
        le_trans hV2 (mul_le_mul_of_nonneg_right s3 (le_of_lt hup))
      refine le_trans s4 (le_of_eq ?_)
      rw [hideal]
      ring
    have hVlb : ideal * (1 - u) ^ 4 ≤ V.toQ := by
      have s1 : ((e - s : ℕ) : ℚ) * (A * (1 - u)) ≤ ((e - s : ℕ) : ℚ) * R.toQ :=
        mul_le_mul_of_nonneg_left hR1 (le_of_lt hBq)
      have s2 : ((e - s : ℕ) : ℚ) * (A * (1 - u)) * (1 - u) ≤ T.toQ :=
        le_trans (mul_le_mul_of_nonneg_right s1 (le_of_lt hu1)) hT1
      have s3 : (((e - s : ℕ) : ℚ) * (A * (1 - u)) * (1 - u)) * ((11 / 10 : ℚ) * (1 - u)) ≤
          T.toQ * dLit11.toQ :=
        mul_le_mul s2 hL1 (le_of_lt (by positivity))
          (le_of_lt hTpos)
      have s4 : (((e - s : ℕ) : ℚ) * (A * (1 - u)) * (1 - u)) *
            ((11 / 10 : ℚ) * (1 - u)) * (1 - u) ≤ V.toQ :=
        le_trans (mul_le_mul_of_nonneg_right s3 (le_of_lt hu1)) hV1
      refine le_trans (le_of_eq ?_) s4
      rw [hideal]
      ring
    have hpow_ub : ((1 : ℚ) + u) ^ 4 ≤ 1 + 8 * u := by
      rw [hu]
      norm_num
    have hpow_lb : (1 : ℚ) - 8 * u ≤ (1 - u) ^ 4 := by
      rw [hu]
      norm_num
    have hVub2 : V.toQ ≤ ideal * (1 + 8 * u) :=
      le_trans hVub (mul_le_mul_of_nonneg_left hpow_ub (le_of_lt hideal0))
    have hVlb2 : ideal * (1 - 8 * u) ≤ V.toQ :=
      le_trans (mul_le_mul_of_nonneg_left hpow_lb (le_of_lt hideal0)) hVlb
    obtain ⟨hTr1, hTr2⟩ := dTrunc_bounds V
    rw [hEdef]
    constructor
    · have hq1 : ((dTrunc V : ℕ) : ℚ) * ((m : ℚ) * 10 * 2 ^ 50) ≤
          ((e - s : ℕ) : ℚ) * n * 11 * (2 ^ 50 + 1) := by
        have hle : ((dTrunc V : ℕ) : ℚ) ≤ ideal * (1 + 8 * u) := le_trans hTr1 hVub2
        calc ((dTrunc V : ℕ) : ℚ) * ((m : ℚ) * 10 * 2 ^ 50)
            ≤ (ideal * (1 + 8 * u)) * ((m : ℚ) * 10 * 2 ^ 50) :=
              mul_le_mul_of_nonneg_right hle (by positivity)
          _ = ((e - s : ℕ) : ℚ) * n * 11 * (2 ^ 50 + 1) := by
              rw [hideal, hA, hu]
              field_simp
              ring
      have hcast : (((e - s) * n * 11 * (2 ^ 50 + 1) : ℕ) : ℚ) =
          ((e - s : ℕ) : ℚ) * n * 11 * (2 ^ 50 + 1) := by push_cast; ring
      rw [show dTrunc (dMul (dMul (dOfNat (e - s)) (dDiv (dOfNat n) (dOfNat m))) dLit11) =
        dTrunc V from rfl]
      have hq2 : ((dTrunc V * (m * 10 * 2 ^ 50) : ℕ) : ℚ) ≤
          (((e - s) * n * 11 * (2 ^ 50 + 1) : ℕ) : ℚ) := by
        rw [hcast]
        push_cast
        push_cast at hq1
        linarith
      exact_mod_cast hq2
    · have hq1 : ((e - s : ℕ) : ℚ) * n * 11 * (2 ^ 50 - 1) <
          (((dTrunc V : ℕ) : ℚ) + 1) * ((m : ℚ) * 10 * 2 ^ 50) := by
        have hlt : ideal * (1 - 8 * u) < ((dTrunc V : ℕ) : ℚ) + 1 :=
          lt_of_le_of_lt hVlb2 hTr2
        calc ((e - s : ℕ) : ℚ) * n * 11 * (2 ^ 50 - 1)
            = (ideal * (1 - 8 * u)) * ((m : ℚ) * 10 * 2 ^ 50) := by
              rw [hideal, hA, hu]
              field_simp
              ring
          _ < (((dTrunc V : ℕ) : ℚ) + 1) * ((m : ℚ) * 10 * 2 ^ 50) :=
              mul_lt_mul_of_pos_right hlt (by positivity)
      rw [show dTrunc (dMul (dMul (dOfNat (e - s)) (dDiv (dOfNat n) (dOfNat m))) dLit11) =
        dTrunc V from rfl]
      have hc1 : (((2 : ℕ) ^ 50 - 1 : ℕ) : ℚ) = (2 : ℚ) ^ 50 - 1 := by norm_num
      have hq2 : (((e - s) * n * 11 * (2 ^ 50 - 1) : ℕ) : ℚ) <
          (((dTrunc V + 1) * (m * 10 * 2 ^ 50) : ℕ) : ℚ) := by
        push_cast [hc1]
        push_cast at hq1
        linarith
      exact_mod_cast hq2

set_option maxRecDepth 100000 in
/-- Claim C7 amended, witness: at `num_lines = 3`, `max_bytes = 2` and
byte range `[1, 4)` the hypotheses hold, and the bracketing bounds apply;
moreover the estimate in fact evaluates to 4 (the truncation of the
double value ≈ 4.95). -/
theorem c7_estimate_lines_truncates_witness :
    (0 < 2 ∧ 1 ≤ 4 ∧ 4 < 2 ^ 64 ∧ 3 < 2 ^ 53 ∧ 2 < 2 ^ 53 ∧ 4 - 1 < 2 ^ 53) ∧
    (estimate_lines_in_range 3 2 1 4 * (2 * 10 * 2 ^ 50) ≤
        (4 - 1) * 3 * 11 * (2 ^ 50 + 1) ∧
      (4 - 1) * 3 * 11 * (2 ^ 50 - 1) <
        (estimate_lines_in_range 3 2 1 4 + 1) * (2 * 10 * 2 ^ 50)) ∧
    estimate_lines_in_range 3 2 1 4 = 4 :=
  ⟨⟨by norm_num, by norm_num, by norm_num, by norm_num, by norm_num, by norm_num⟩,
    c7_estimate_lines_truncates 3 2 1 4 (by norm_num) (by norm_num) (by norm_num)
      (by norm_num) (by norm_num) (by norm_num), by decide⟩

set_option maxRecDepth 100000 in
/-- Claim C7 counterexample: for `num_lines = 1`, `max_bytes = 1` and the
byte range `[0, 1)`, the code computes the binary64 product
`1.0 * 1.0 * 1.1` (whose value is the double literal `1.1`, slightly above
`11/10`) and truncates it to `1`, while the claimed formula
`ceil(... * 1.1)` gives `2`. -/
theorem c7_counterexample :
    estimate_lines_in_range 1 1 0 1 = 1 ∧ estimateLinesInRangeSpecCeil 1 1 0 1 = 2 := by
  constructor
  · decide
  · have h : sizeSub 1 0 = 1 := by decide
    rw [estimateLinesInRangeSpecCeil, if_neg (by norm_num), h]
    norm_num
    rw [Nat.ceil_eq_iff (by norm_num)]
    norm_num

/-! ## Claim C9 -/

/-- Claim C9 counterexample: constructing the line-oriented byte-range
iterator over the empty range `[100, 100)` raises `invalid_argument`
("Invalid byte range") instead of succeeding with zero bytes and
`done() == true`. -/
theorem c9_counterexample :
    mkIndexedFileBytesIterator "ab\ncd\n".toList 100 100 =
      Except.error "Invalid byte range" := by rfl

/-- Claim C9 amended: the `IndexedFileBytesIterator` constructor succeeds
exactly when `start_byte < end_byte`; an empty range (`start == end`) is
rejected with an `invalid_argument` error rather than yielding an empty
exhausted iterator. -/
theorem c9_empty_range_rejected (content : List Char) (startByte endByte : Nat) :
    (∃ it, mkIndexedFileBytesIterator content startByte endByte = Except.ok it) ↔
      startByte < endByte := by
  unfold mkIndexedFileBytesIterator
  split_ifs with h
  · constructor
    · rintro ⟨it, hit⟩
      cases hit
    · omega
  · constructor
    · intro _
      omega
    · intro _
      exact ⟨_, rfl⟩

/-! ## Claim C6 -/

/-- One `read` call on a state with a nonempty pending line writes the
`min |L| w` bytes that fit and retains the remainder as pending. -/
theorem lsRead_pending_eq (s : LSState) (L : List Char) (w : Nat)
    (hp : s.pending = some L) (hL : L ≠ []) :
    lsRead s w = (min L.length w, L.take (min L.length w),
      if (L.drop (min L.length w)).isEmpty = true then { s with pending := none }
      else { s with pending := some (L.drop (min L.length w)) }) := by
  unfold lsRead outputPendingLine
  rw [hp]
  simp only [List.isEmpty_eq_true, hL, if_false]
  split_ifs with h <;> simp [h]

/-- The ceiling count of reads needed to drain a pending line of length
`n` with buffers of capacity `w`. -/
theorem drain_count_step (n w : Nat) (hw : 1 ≤ w) (hn : w < n) :
    (n + w - 1) / w = (n - w + w - 1) / w + 1 := by
  have h2 : n - w + w - 1 = n - 1 := by omega
  have h3 : n + w - 1 = (n - 1) + w := by omega
  rw [h2, h3, Nat.add_div_right _ (by omega)]

/-- Draining a pending line: induction worker. -/
theorem drain_pending_aux (w : Nat) (hw : 1 ≤ w) :
    ∀ (n : Nat) (L : List Char) (s : LSState), L.length ≤ n → s.pending = some L →
      L ≠ [] → drainN w s ((L.length + w - 1) / w) = L := by
  intro n
  induction n with
  | zero =>
      intro L s hlen hp hL
      cases L with
      | nil => exact absurd rfl hL
      | cons a as => simp at hlen
  | succ n ih =>
      intro L s hlen hp hL
      have hL1 : 1 ≤ L.length := List.length_pos.mpr hL
      by_cases hsm : L.length ≤ w
      · have hcount : (L.length + w - 1) / w = 1 := by
          have := Nat.div_eq_of_lt_le (by omega : 1 * w ≤ L.length + w - 1)
            (by omega : L.length + w - 1 < (1 + 1) * w)
          simpa using this
        have hmin : min L.length w = L.length := by omega
        rw [hcount]
        unfold drainN
        rw [lsRead_pending_eq s L w hp hL]
        unfold drainN
        simp [hmin]
      · push_neg at hsm
        have hmin : min L.length w = w := by omega
        have hstep : (L.length + w - 1) / w = (L.length - w + w - 1) / w + 1 :=
          drain_count_step L.length w hw hsm
        have hdroplen : (L.drop w).length = L.length - w := by simp
        rw [hstep]
        unfold drainN
        rw [lsRead_pending_eq s L w hp hL]
        have hdropne : L.drop w ≠ [] := by
          intro hcon
          have := congrArg List.length hcon
          simp at this
          omega
        have hdropem : (L.drop w).isEmpty = false := by
          simpa [List.isEmpty_iff] using hdropne
        simp only [hmin, hdropem, Bool.false_eq_true, if_false]
        have ihapp := ih (L.drop w)
          { s with pending := some (L.drop w) } (by simp; omega) rfl hdropne
        rw [hdroplen] at ihapp
        rw [ihapp]
        exact List.take_append_drop w L

/-- Claim C6: for every pending line `L` and caller buffer strictly smaller
than `L` (but nonempty), repeated `read` calls lose no data: each call
writes the part of the pending line that fits and retains the remainder,
and the concatenation of the bytes returned over `ceil(|L| / w)` successive
calls equals `L`, including its trailing newline when `L` carries one. -/
theorem c6_partial_reads_lose_no_data (s : LSState) (L : List Char) (w : Nat)
    (hp : s.pending = some L) (hw : 1 ≤ w) (hwL : w < L.length) :
    drainN w s ((L.length + w - 1) / w) = L :=
  drain_pending_aux w hw L.length L s le_rfl hp
    (by intro h; rw [h] at hwL; simp at hwL)

/-- Claim C6 witness: the pending line `"hello\n"` drained with 2-byte
buffers over 3 calls. -/
theorem c6_partial_reads_lose_no_data_witness :
    (⟨[], [], [], some ['h', 'e', 'l', 'l', 'o', '\n'], false, 1, 0, 0⟩ :
        LSState).pending = some ['h', 'e', 'l', 'l', 'o', '\n'] ∧
    1 ≤ 2 ∧ 2 < (['h', 'e', 'l', 'l', 'o', '\n'] : List Char).length ∧
    drainN 2 ⟨[], [], [], some ['h', 'e', 'l', 'l', 'o', '\n'], false, 1, 0, 0⟩
        (((['h', 'e', 'l', 'l', 'o', '\n'] : List Char).length + 2 - 1) / 2) =
      ['h', 'e', 'l', 'l', 'o', '\n'] :=
  ⟨rfl, by decide, by decide,
    c6_partial_reads_lose_no_data _ _ 2 rfl (by decide) (by decide)⟩

/-! ## Claim C8 -/

/-- If the failure index lies within the lines still to process, the
per-line loop aborts with an exception. -/
theorem writeEventsGo_raises (p : String) (jv : List Char → Option (List Char)) (i : Nat) :
    ∀ (lines : List (List Char)) (idx count : Nat) (tr : List FileOp),
      idx ≤ i → i < idx + lines.length →
      ∃ tr', writeEventsGo p jv (some i) lines idx count tr = Except.error tr' := by
  intro lines
  induction lines with
  | nil =>
      intro idx count tr h1 h2
      simp at h2
      omega
  | cons l rest ih =>
      intro idx count tr h1 h2
      unfold writeEventsGo
      by_cases hidx : i = idx
      · subst hidx
        simp
      · have hne : (some i = some idx) = False := by simp; omega
        simp only [hne, if_false]
        cases hjv : jv l with
        | some t =>
            dsimp only
            split_ifs with hlen
            · exact ih (idx + 1) (count + 1) _ (by omega) (by simp at h2 ⊢; omega)
            · exact ih (idx + 1) count tr (by omega) (by simp at h2 ⊢; omega)
        | none =>
            dsimp only
            exact ih (idx + 1) count tr (by omega) (by simp at h2 ⊢; omega)

/-- The per-line loop only appends `writeData` operations: a `removeFile`
absent from the incoming trace is absent from the outgoing one, whether the
loop completes or aborts. -/
theorem writeEventsGo_no_remove (p q : String) (jv : List Char → Option (List Char))
    (failAt : Option Nat) :
    ∀ (lines : List (List Char)) (idx count : Nat) (tr : List FileOp),
      FileOp.removeFile q ∉ tr →
      (∀ tr', writeEventsGo p jv failAt lines idx count tr = Except.error tr' →
        FileOp.removeFile q ∉ tr') ∧
      (∀ c tr', writeEventsGo p jv failAt lines idx count tr = Except.ok (c, tr') →
        FileOp.removeFile q ∉ tr') := by
  intro lines
  induction lines with
  | nil =>
      intro idx count tr htr
      constructor
      · intro tr' h
        cases h
      · intro c tr' h
        unfold writeEventsGo at h
        cases h
        exact htr
  | cons l rest ih =>
      intro idx count tr htr
      unfold writeEventsGo
      split_ifs with hf
      · constructor
        · intro tr' h
          cases h
          exact htr
        · intro c tr' h
          cases h
      · cases hjv : jv l with
        | some t =>
            dsimp only
            split_ifs with hlen
            · exact ih (idx + 1) (count + 1) _ (by simp [htr])
            · exact ih (idx + 1) count tr htr
        | none =>
            dsimp only
            exact ih (idx + 1) count tr htr

/-- Without a failure the per-line loop completes, counting exactly the
lines the extractor keeps. -/
theorem writeEventsGo_completes (p : String) (jv : List Char → Option (List Char)) :
    ∀ (lines : List (List Char)) (idx count : Nat) (tr : List FileOp),
      ∃ tr', writeEventsGo p jv none lines idx count tr =
        Except.ok (count + (lines.filter (extractorKeepsLine jv)).length, tr') := by
  intro lines
  induction lines with
  | nil =>
      intro idx count tr
      simp [writeEventsGo]
  | cons l rest ih =>
      intro idx count tr
      unfold writeEventsGo
      rw [if_neg (show ¬ (none : Option Nat) = some idx by simp)]
      cases hjv : jv l with
      | some t =>
          dsimp only
          by_cases hlen : t.length > 8
          · have hk : extractorKeepsLine jv l = true := by
              unfold extractorKeepsLine
              rw [hjv]
              simpa using hlen
            rw [if_pos hlen, List.filter_cons, hk]
            simp only [if_true, List.length_cons]
            obtain ⟨tr', htr'⟩ := ih (idx + 1) (count + 1) (tr ++ [FileOp.writeData p (t ++ ['\n'])])
            refine ⟨tr', ?_⟩
            rw [htr']
            congr 2
            omega
          · have hk : extractorKeepsLine jv l = false := by
              unfold extractorKeepsLine
              rw [hjv]
              simpa using hlen
            rw [if_neg hlen, List.filter_cons, hk]
            simp only [Bool.false_eq_true, if_false]
            exact ih (idx + 1) count tr
      | none =>
          dsimp only
          have hk : extractorKeepsLine jv l = false := by
            unfold extractorKeepsLine
            rw [hjv]
          rw [List.filter_cons, hk]
          simp only [Bool.false_eq_true, if_false]
          exact ih (idx + 1) count tr

/-- Claim C8 counterexample input. -/
def c8Input : ExtractionInput := ⟨7, "out", "app", 0⟩

/-- A ten-byte line, kept by the validator of the counterexample. -/
def c8Line : List Char := ['0', '1', '2', '3', '4', '5', '6', '7', '8', '9']

/-- Claim C8 counterexample environment: the output opens fine, the
validator accepts every line unchanged, and an unrecoverable exception is
raised before the second line. -/
def c8Env : ExtractionEnv := ⟨[c8Line, c8Line], fun l => some l, true, some 1⟩

/-- Claim C8 counterexample: when an exception is raised mid-extraction the
result has `success = false` as claimed, but the partially written output
file (the array opener and the first event were already written) is NOT
removed — no `removeFile` appears in the effect trace, contradicting the
claim that the partial file is removed. -/
theorem c8_counterexample :
    (chunkExtractorProcess c8Input c8Env).1.success = false ∧
    FileOp.writeData (outputPathOf "out" "app" 7) (c8Line ++ ['\n']) ∈
      (chunkExtractorProcess c8Input c8Env).2 ∧
    FileOp.removeFile (outputPathOf "out" "app" 7) ∉
      (chunkExtractorProcess c8Input c8Env).2 := by decide

/-- Claim C8 amended: per-line validation failures never fail the task (the
offending line is only dropped and the task reports `success = true`); an
unrecoverable error mid-extraction yields `success = false`, but the
partially written output file is left on disk — it is NOT removed. -/
theorem c8_failure_marks_unsuccessful_but_keeps_partial_file
    (input : ExtractionInput) (env : ExtractionEnv) (i : Nat)
    (hopen : env.canOpen = true) (hfail : env.failAt = some i)
    (hi : i < env.lines.length) :
    (chunkExtractorProcess input env).1.success = false ∧
    FileOp.removeFile (outputPathOf input.output_dir input.app_name input.chunk_index) ∉
      (chunkExtractorProcess input env).2 ∧
    (∀ env2 : ExtractionEnv, env2.canOpen = true → env2.failAt = none →
      (chunkExtractorProcess input env2).1.success = true) := by
  have hmain : (chunkExtractorProcess input env).1.success = false ∧
      FileOp.removeFile (outputPathOf input.output_dir input.app_name input.chunk_index) ∉
        (chunkExtractorProcess input env).2 := by
    unfold chunkExtractorProcess extract_and_write
    rw [hopen, hfail]
    simp only [Bool.true_eq_false, if_false]
    obtain ⟨tr', htr'⟩ := writeEventsGo_raises
      (outputPathOf input.output_dir input.app_name input.chunk_index) env.jv i
      env.lines 0 0 _ (by omega) (by omega)
    rw [htr']
    constructor
    · rfl
    · exact (writeEventsGo_no_remove _ _ env.jv (some i) env.lines 0 0 _
        (by simp)).1 tr' htr'
  refine ⟨hmain.1, hmain.2, ?_⟩
  intro env2 hopen2 hfail2
  unfold chunkExtractorProcess extract_and_write
  rw [hopen2, hfail2]
  simp only [Bool.true_eq_false, if_false]
  obtain ⟨tr', htr'⟩ := writeEventsGo_completes
    (outputPathOf input.output_dir input.app_name input.chunk_index) env2.jv
    env2.lines 0 0 _
  rw [htr']

/-- Claim C8 witness: the amended theorem applied to the concrete failing
environment of the counterexample. -/
theorem c8_failure_witness :
    c8Env.canOpen = true ∧ c8Env.failAt = some 1 ∧ 1 < c8Env.lines.length ∧
    ((chunkExtractorProcess c8Input c8Env).1.success = false ∧
      FileOp.removeFile (outputPathOf c8Input.output_dir c8Input.app_name
        c8Input.chunk_index) ∉ (chunkExtractorProcess c8Input c8Env).2 ∧
      (∀ env2 : ExtractionEnv, env2.canOpen = true → env2.failAt = none →
        (chunkExtractorProcess c8Input env2).1.success = true)) :=
  ⟨rfl, rfl, by decide,
    c8_failure_marks_unsuccessful_but_keeps_partial_file c8Input c8Env 1 rfl rfl (by decide)⟩

/-! ## Claim C10 -/

/-- The metadata collector's `valid_events` counter counts exactly the
lines on which the extractor's keep condition holds. -/
theorem metadataCollectorCounts_snd (jv : List Char → Option (List Char)) :
    ∀ (lines : List (List Char)) (acc : Nat × Nat),
      (lines.foldl
        (fun acc l =>
          match jv l with
          | some t => if t.length > 8 then (acc.1 + l.length, acc.2 + 1) else acc
          | none => acc) acc).2 =
        acc.2 + (lines.filter (extractorKeepsLine jv)).length := by
  intro lines
  induction lines with
  | nil => intro acc; simp
  | cons l rest ih =>
      intro acc
      simp only [List.foldl_cons]
      cases hjv : jv l with
      | some t =>
          dsimp only
          by_cases hlen : t.length > 8
          · have hk : extractorKeepsLine jv l = true := by
              unfold extractorKeepsLine
              rw [hjv]
              simpa using hlen
            rw [if_pos hlen, List.filter_cons, hk, ih]
            simp only [if_true, List.length_cons]
            omega
          · have hk : extractorKeepsLine jv l = false := by
              unfold extractorKeepsLine
              rw [hjv]
              simpa using hlen
            rw [if_neg hlen, List.filter_cons, hk, ih]
            simp only [Bool.false_eq_true, if_false]
      | none =>
          dsimp only
          have hk : extractorKeepsLine jv l = false := by
            unfold extractorKeepsLine
            rw [hjv]
          rw [List.filter_cons, hk, ih]
          simp only [Bool.false_eq_true, if_false]

/-- Claim C10: metadata collection, chunk extraction and event-ID
collection all count/keep a line as a valid event only when the JSON
trim-and-validate accepts it AND the trimmed text is strictly longer than
8 bytes; a validator-accepted line of at most 8 trimmed bytes is uniformly
dropped by all three. -/
theorem c10_uniform_short_json_dropped (jv : List Char → Option (List Char))
    (pe : List Char → Option EventId) (l t : List Char) :
    ((metadataCollectorCounts jv []).2 = 0) ∧
    (∀ lines, (metadataCollectorCounts jv lines).2 =
      (lines.filter (extractorKeepsLine jv)).length) ∧
    (∀ input env, env.canOpen = true → env.failAt = none →
      (chunkExtractorProcess input env).1.events =
        (env.lines.filter (extractorKeepsLine env.jv)).length) ∧
    (jv l = some t → t.length ≤ 8 →
      extractorKeepsLine jv l = false ∧ eventIdCollectorLine jv pe l = none) ∧
    (eventIdCollectorLine jv pe l ≠ none →
      extractorKeepsLine jv l = true) := by
  refine ⟨rfl, ?_, ?_, ?_, ?_⟩
  · intro lines
    unfold metadataCollectorCounts
    simpa using metadataCollectorCounts_snd jv lines (0, 0)
  · intro input env hopen hfail
    unfold chunkExtractorProcess extract_and_write
    rw [hopen, hfail]
    simp only [Bool.true_eq_false, if_false]
    obtain ⟨tr', htr'⟩ := writeEventsGo_completes
      (outputPathOf input.output_dir input.app_name input.chunk_index) env.jv
      env.lines 0 0 _
    rw [htr']
    dsimp only
    omega
  · intro hjv hlen
    constructor
    · unfold extractorKeepsLine
      rw [hjv]
      simpa using hlen
    · unfold eventIdCollectorLine
      rw [hjv]
      simp [hlen]
  · intro hne
    unfold eventIdCollectorLine at hne
    unfold extractorKeepsLine
    cases hjv : jv l with
    | none => rw [hjv] at hne; simp at hne
    | some t2 =>
        rw [hjv] at hne
        dsimp only at hne
        dsimp only
        by_cases hlen : t2.length ≤ 8
        · rw [if_pos hlen] at hne
          simp at hne
        · simp
          omega

/-- Claim C10 witness: with the identity validator, an 8-byte JSON line is
dropped by the extractor's keep condition and by the event-ID collector. -/
theorem c10_uniform_short_json_dropped_witness :
    (fun l => some l) (['{', 'a', ':', '1', '2', '3', '4', '}'] : List Char) =
      some ['{', 'a', ':', '1', '2', '3', '4', '}'] ∧
    (['{', 'a', ':', '1', '2', '3', '4', '}'] : List Char).length ≤ 8 ∧
    extractorKeepsLine (fun l => some l) ['{', 'a', ':', '1', '2', '3', '4', '}'] = false ∧
    eventIdCollectorLine (fun l => some l) (fun _ => some ⟨1, 2, 3⟩)
      ['{', 'a', ':', '1', '2', '3', '4', '}'] = none :=
  ⟨rfl, by decide,
    ((c10_uniform_short_json_dropped (fun l => some l) (fun _ => some ⟨1, 2, 3⟩)
      ['{', 'a', ':', '1', '2', '3', '4', '}'] ['{', 'a', ':', '1', '2', '3', '4', '}']).2.2.2.1
      rfl (by decide)).1,
    ((c10_uniform_short_json_dropped (fun l => some l) (fun _ => some ⟨1, 2, 3⟩)
      ['{', 'a', ':', '1', '2', '3', '4', '}'] ['{', 'a', ':', '1', '2', '3', '4', '}']).2.2.2.1
      rfl (by decide)).2⟩


/-! ## Claim C1 -/

/-- The contents of the offset-annotated lines are the plain split lines. -/
theorem linesGo_map_snd : ∀ (content : List Char) (start : Nat) (acc : List Char),
    (linesGo content start acc).map Prod.snd = splitLinesGo content acc := by
  intro content
  induction content with
  | nil =>
      intro start acc
      unfold linesGo splitLinesGo
      split_ifs <;> simp
  | cons c rest ih =>
      intro start acc
      unfold linesGo splitLinesGo
      split_ifs with hc
      · simp [ih]
      · exact ih start (acc ++ [c])

/-- Every line start recorded by `linesGo` lies strictly below the end of
the scanned region. -/
theorem linesGo_start_lt : ∀ (content : List Char) (start : Nat) (acc : List Char)
    (pr : Nat × List Char), pr ∈ linesGo content start acc →
    pr.1 < start + acc.length + content.length := by
  intro content
  induction content with
  | nil =>
      intro start acc pr hpr
      unfold linesGo at hpr
      split_ifs at hpr with hacc
      · simp at hpr
      · simp at hpr
        have hlen : acc.length ≠ 0 := by
          intro h0
          exact hacc (List.isEmpty_iff.mpr (List.length_eq_zero.mp h0))
        subst hpr
        simp
        omega
  | cons c rest ih =>
      intro start acc pr hpr
      unfold linesGo at hpr
      split_ifs at hpr with hc
      · simp only [List.mem_cons] at hpr
        rcases hpr with hpr | hpr
        · rw [hpr]
          simp
          omega
        · have := ih (start + acc.length + 1) [] pr hpr
          simp at this ⊢
          omega
      · have := ih start (acc ++ [c]) pr hpr
        simp at this ⊢
        omega

/-- Splitting a half-open interval filter at an interior point yields a
permutation of the filter over the whole interval. -/
theorem filter_range_split {α : Type} (f : α → Nat) (a b c : Nat)
    (hab : a ≤ b) (hbc : b ≤ c) : ∀ (l : List α),
    List.Perm
      (l.filter (fun x => decide (a ≤ f x) && decide (f x < b)) ++
        l.filter (fun x => decide (b ≤ f x) && decide (f x < c)))
      (l.filter (fun x => decide (a ≤ f x) && decide (f x < c))) := by
  intro l
  induction l with
  | nil => simp
  | cons x xs ih =>
      simp only [List.filter_cons]
      by_cases h1 : a ≤ f x
      · by_cases h2 : f x < b
        · have h3 : f x < c := lt_of_lt_of_le h2 hbc
          have h4 : ¬ b ≤ f x := by omega
          rw [if_pos (show (decide (a ≤ f x) && decide (f x < b)) = true by simp [h1, h2]),
            if_neg (show ¬ (decide (b ≤ f x) && decide (f x < c)) = true by simp [h4]),
            if_pos (show (decide (a ≤ f x) && decide (f x < c)) = true by simp [h1, h3])]
          exact ih.cons x
        · by_cases h3 : f x < c
          · have h4 : b ≤ f x := by omega
            rw [if_neg (show ¬ (decide (a ≤ f x) && decide (f x < b)) = true by simp [h2]),
              if_pos (show (decide (b ≤ f x) && decide (f x < c)) = true by simp [h4, h3]),
              if_pos (show (decide (a ≤ f x) && decide (f x < c)) = true by simp [h1, h3])]
            exact List.Perm.trans List.perm_middle (ih.cons x)
          · rw [if_neg (show ¬ (decide (a ≤ f x) && decide (f x < b)) = true by simp [h2]),
              if_neg (show ¬ (decide (b ≤ f x) && decide (f x < c)) = true by simp [h3]),
              if_neg (show ¬ (decide (a ≤ f x) && decide (f x < c)) = true by simp [h3])]
            exact ih
      · have h4 : ¬ b ≤ f x := by omega
        rw [if_neg (show ¬ (decide (a ≤ f x) && decide (f x < b)) = true by simp [h1]),
          if_neg (show ¬ (decide (b ≤ f x) && decide (f x < c)) = true by simp [h4]),
          if_neg (show ¬ (decide (a ≤ f x) && decide (f x < c)) = true by simp [h1])]
        exact ih

/-- A chain of `≤` bounds its head by its last element. -/
theorem chain_le_getLast : ∀ (rest : List Nat) (b : Nat),
    List.Chain' (· ≤ ·) (b :: rest) → b ≤ (b :: rest).getLast (by simp) := by
  intro rest
  induction rest with
  | nil => intro b _; simp [List.getLast]
  | cons c rest' ih =>
      intro b h
      rw [List.getLast_cons (by simp)]
      exact le_trans (List.chain'_cons.mp h).1 (ih c (List.chain'_cons.mp h).2)

/-- An empty byte range emits no lines. -/
theorem emitLineBytes_self_eq_nil (content : List Char) (a : Nat) :
    emitLineBytes content a a = [] := by
  unfold emitLineBytes
  rw [List.filter_eq_nil_iff.mpr]
  · rfl
  · intro pr _
    simp

/-- The `LineBytes` emissions over consecutive ranges with non-decreasing
boundaries permute to the single emission over the full range. -/
theorem segEmit_perm (content : List Char) : ∀ (rest : List Nat) (a : Nat),
    List.Chain' (· ≤ ·) (a :: rest) →
    List.Perm (segEmitLineBytes content (a :: rest))
      (emitLineBytes content a ((a :: rest).getLast (by simp))) := by
  intro rest
  induction rest with
  | nil =>
      intro a _
      simp only [List.getLast_singleton]
      rw [emitLineBytes_self_eq_nil]
      unfold segEmitLineBytes
      exact List.Perm.refl _
  | cons b rest' ih =>
      intro a hchain
      have hab : a ≤ b := (List.chain'_cons.mp hchain).1
      have hchain' : List.Chain' (· ≤ ·) (b :: rest') := (List.chain'_cons.mp hchain).2
      have hblast : b ≤ (b :: rest').getLast (by simp) := chain_le_getLast rest' b hchain'
      rw [List.getLast_cons (by simp)]
      show List.Perm (emitLineBytes content a b ++ segEmitLineBytes content (b :: rest'))
        (emitLineBytes content a ((b :: rest').getLast (by simp)))
      refine List.Perm.trans ((ih b hchain').append_left (emitLineBytes content a b)) ?_
      unfold emitLineBytes
      rw [← List.map_append]
      exact (filter_range_split (fun pr => pr.1) a b _ hab hblast
        (linesWithStarts content)).map Prod.snd

/-- Every line of the file is emitted by the full range `[0, |content|)`. -/
theorem emitLineBytes_full (content : List Char) :
    emitLineBytes content 0 content.length = splitLines content := by
  unfold emitLineBytes
  rw [List.filter_eq_self.mpr]
  · exact linesGo_map_snd content 0 []
  · intro pr hpr
    have := linesGo_start_lt content 0 [] pr hpr
    simp at this ⊢
    omega

/-- Claim C1: for every archive content and every partition
`0 = c0 < c1 < ... < ck = max_bytes` of `[0, max_bytes)` into consecutive
byte ranges, the concatenation of the lines produced by the `LineBytes`
streams over the ranges `[c_i, c_{i+1})` is a permutation of the lines of
the whole decompressed file: no line is emitted by two ranges and no line
is missing. -/
theorem c1_partition_completeness (content : List Char) (bs : List Nat)
    (hchain : List.Chain' (· < ·) bs) (hhead : bs.head? = some 0)
    (hlast : bs.getLast? = some content.length) :
    List.Perm (segEmitLineBytes content bs) (splitLines content) := by
  obtain ⟨a, rest, rfl⟩ : ∃ a rest, bs = a :: rest := by
    cases bs with
    | nil => simp at hhead
    | cons a rest => exact ⟨a, rest, rfl⟩
  have ha : a = 0 := by simpa using hhead
  subst ha
  have hle : List.Chain' (· ≤ ·) (0 :: rest) :=
    hchain.imp (fun _ _ h => le_of_lt h)
  have hperm := segEmit_perm content rest 0 hle
  have hlasteq : (0 :: rest).getLast (by simp) = content.length := by
    have := List.getLast?_eq_getLast (0 :: rest) (by simp)
    rw [this] at hlast
    exact Option.some_injective _ hlast
  rw [hlasteq] at hperm
  rw [← emitLineBytes_full content]
  exact hperm

/-- Claim C1 witness: the file `"ab\ncd\nef\n"` cut at the partition
`0 < 4 < 9`. -/
theorem c1_partition_completeness_witness :
    List.Chain' (· < ·) [0, 4, 9] ∧
    ([0, 4, 9] : List Nat).head? = some 0 ∧
    ([0, 4, 9] : List Nat).getLast? = some ("ab\ncd\nef\n".toList).length ∧
    List.Perm (segEmitLineBytes "ab\ncd\nef\n".toList [0, 4, 9])
      (splitLines "ab\ncd\nef\n".toList) :=
  ⟨List.chain'_cons.mpr ⟨by norm_num, List.chain'_cons.mpr ⟨by norm_num,
      List.chain'_singleton 9⟩⟩, rfl, rfl,
    c1_partition_completeness "ab\ncd\nef\n".toList [0, 4, 9]
      (List.chain'_cons.mpr ⟨by norm_num, List.chain'_cons.mpr ⟨by norm_num,
        List.chain'_singleton 9⟩⟩) rfl rfl⟩

/-! ## Claim C2 -/

/-- A well-formed archive line: a newline-free body followed by one
newline. -/
def WfLine (l : List Char) : Prop := ∃ body, l = body ++ ['\n'] ∧ '\n' ∉ body

/-- The first newline of a well-formed line is its last character. -/
theorem findIdx?_newline (body : List Char) (h : '\n' ∉ body) :
    List.findIdx? (fun ch => ch = '\n') (body ++ ['\n']) = some body.length := by
  induction body with
  | nil => simp
  | cons c cs ih =>
      have hc : ¬ (c = '\n') := by intro e; exact h (by simp [e])
      have hm : '\n' ∉ cs := fun hmem => h (List.mem_cons_of_mem c hmem)
      rw [List.cons_append, List.findIdx?_cons]
      simp only [hc, decide_False, Bool.false_eq_true, if_false, Nat.zero_add,
        List.findIdx?_succ, ih hm, Option.map_some]
      rfl

/-- The `LineStream` state of a `LINE_RANGE [a, b]` stream (initial
checkpoint line `initial`) after the lines before line `n` have been
consumed from the underlying stream: the underlying `LINE_BYTES` stream
still holds lines `n, n+1, ...` (one line per chunk, per the spec's unit
table), the buffers are empty and the running line counter is `n`. -/
def cleanState (LS : List (List Char)) (a b n : Nat) : LSState :=
  ⟨LS.drop (n - 1), [], [], none, false, n, a, b⟩

/-- `is_beyond_range` is false while the counter is within the end line. -/
theorem isBeyondRange_false_of_le (s : LSState)
    (h : s.currentLineNumber ≤ s.endLine) : s.isBeyondRange = false := by
  unfold LSState.isBeyondRange
  simp
  omega

/-- `is_beyond_range` is true once the counter passes a positive end
line. -/
theorem isBeyondRange_true_of_gt (s : LSState) (h1 : 0 < s.endLine)
    (h2 : s.endLine < s.currentLineNumber) : s.isBeyondRange = true := by
  unfold LSState.isBeyondRange
  simp
  omega

/-- `should_output_current_line` is true inside a positive line range. -/
theorem shouldOutput_true_of_in_range (s : LSState) (h1 : 1 ≤ s.startLine)
    (h2 : s.startLine ≤ s.currentLineNumber)
    (h3 : s.currentLineNumber ≤ s.endLine) :
    s.shouldOutputCurrentLine = true := by
  unfold LSState.shouldOutputCurrentLine
  rw [if_neg (by omega)]
  simp
  omega

/-- `should_output_current_line` is false before the start line. -/
theorem shouldOutput_false_of_before (s : LSState) (h1 : 1 ≤ s.startLine)
    (h2 : s.currentLineNumber < s.startLine) :
    s.shouldOutputCurrentLine = false := by
  unfold LSState.shouldOutputCurrentLine
  rw [if_neg (by omega)]
  simp
  omega

/-- One `try_direct_output` iteration: refill by popping a chunk. -/
theorem tdoLoop_step_pop (w fuel : Nat) (s : LSState) (c : List Char) (rest : List (List Char))
    (hbey : s.isBeyondRange = false) (hbuf : s.buf = []) (hch : s.chunks = c :: rest)
    (hc : c ≠ []) :
    tdoLoop w (fuel + 1) s = tdoLoop w fuel { s with buf := c, chunks := rest } := by
  obtain ⟨chunks, buf, lineAcc, pending, fin, cur, sl, el⟩ := s
  simp only at hbuf hch
  subst hbuf hch
  simp only [tdoLoop]
  rw [if_neg (by simp [hbey])]
  rw [if_neg (by simpa using hc)]

/-- One `try_direct_output` iteration: the buffered line is in range and
fits, so it is copied to the caller whole. -/
theorem tdoLoop_step_emit (w fuel : Nat) (s : LSState) (body : List Char)
    (hbey : s.isBeyondRange = false) (hbuf : s.buf = body ++ ['\n'])
    (hnl : '\n' ∉ body) (hfit : body.length + 1 ≤ w)
    (hout : s.shouldOutputCurrentLine = true) :
    tdoLoop w (fuel + 1) s = (body.length + 1, body ++ ['\n'],
      { s with currentLineNumber := s.currentLineNumber + 1, buf := [] }) := by
  obtain ⟨chunks, buf, lineAcc, pending, fin, cur, sl, el⟩ := s
  simp only at hbuf
  subst hbuf
  cases hb : body ++ ['\n'] with
  | nil => simp at hb
  | cons x xs =>
      have hbey' : (⟨chunks, x :: xs, lineAcc, pending, fin, cur, sl, el⟩ :
          LSState).isBeyondRange = false := hbey
      have hout' : (⟨chunks, x :: xs, lineAcc, pending, fin, cur, sl, el⟩ :
          LSState).shouldOutputCurrentLine = true := hout
      have hfind : List.findIdx? (fun ch => ch = '\n') (x :: xs) = some body.length := by
        rw [← hb]
        exact findIdx?_newline body hnl
      have hlenxx : (x :: xs).length = body.length + 1 := by
        rw [← hb]
        simp
      simp only [tdoLoop]
      rw [if_neg (by simp [hbey'])]
      simp only [hfind]
      rw [if_neg (by omega)]
      rw [if_neg (by simp [hbey'])]
      rw [if_pos hout']
      rw [show (x :: xs).take (body.length + 1) = x :: xs by
        rw [← hlenxx]; exact List.take_length (x :: xs)]
      rw [show (x :: xs).drop (body.length + 1) = ([] : List Char) by
        rw [← hlenxx]; exact List.drop_length (x :: xs)]

/-- One `try_direct_output` iteration: the buffered line is filtered out
and skipped. -/
theorem tdoLoop_step_skip (w fuel : Nat) (s : LSState) (body : List Char)
    (hbey : s.isBeyondRange = false) (hbuf : s.buf = body ++ ['\n'])
    (hnl : '\n' ∉ body) (hfit : body.length + 1 ≤ w)
    (hout : s.shouldOutputCurrentLine = false) :
    tdoLoop w (fuel + 1) s = tdoLoop w fuel
      { s with currentLineNumber := s.currentLineNumber + 1, buf := [] } := by
  obtain ⟨chunks, buf, lineAcc, pending, fin, cur, sl, el⟩ := s
  simp only at hbuf
  subst hbuf
  cases hb : body ++ ['\n'] with
  | nil => simp at hb
  | cons x xs =>
      have hbey' : (⟨chunks, x :: xs, lineAcc, pending, fin, cur, sl, el⟩ :
          LSState).isBeyondRange = false := hbey
      have hout' : (⟨chunks, x :: xs, lineAcc, pending, fin, cur, sl, el⟩ :
          LSState).shouldOutputCurrentLine = false := hout
      have hfind : List.findIdx? (fun ch => ch = '\n') (x :: xs) = some body.length := by
        rw [← hb]
        exact findIdx?_newline body hnl
      have hlenxx : (x :: xs).length = body.length + 1 := by
        rw [← hb]
        simp
      simp only [tdoLoop]
      rw [if_neg (by simp [hbey'])]
      simp only [hfind]
      rw [if_neg (by omega)]
      rw [if_neg (by simp [hbey'])]
      rw [if_neg (by simp [hout'])]
      rw [show (x :: xs).drop (body.length + 1) = ([] : List Char) by
        rw [← hlenxx]; exact List.drop_length (x :: xs)]

/-- One `try_direct_output` iteration: past the end of the range the loop
finishes the stream. -/
theorem tdoLoop_step_beyond (w fuel : Nat) (s : LSState)
    (hbey : s.isBeyondRange = true) :
    tdoLoop w (fuel + 1) s = (0, [], { s with isFinished := true }) := by
  simp only [tdoLoop]
  rw [if_pos hbey]

/-- Emitting step: from a clean state at an in-range line `n ∈ [a, b]`,
the fast path pops the line's chunk and copies it whole. -/
theorem tdoLoop_clean_emit (LS : List (List Char)) (a b w n k : Nat)
    (hwf : ∀ l ∈ LS, WfLine l) (hwlen : ∀ l ∈ LS, l.length ≤ w)
    (ha : 1 ≤ a) (han : a ≤ n) (hnb : n ≤ b) (hb : b ≤ LS.length) :
    tdoLoop w (k + 2) (cleanState LS a b n) =
      ((LS.getD (n - 1) []).length, LS.getD (n - 1) [],
        cleanState LS a b (n + 1)) := by
  have hn1 : n - 1 < LS.length := by omega
  have hgetd : LS.getD (n - 1) [] = LS[n - 1] := List.getD_eq_getElem LS [] hn1
  obtain ⟨body, hbody, hnl⟩ := hwf (LS[n - 1]) (LS.getElem_mem hn1)
  have hlen : LS[n - 1].length ≤ w := hwlen (LS[n - 1]) (LS.getElem_mem hn1)
  have hdrop : LS.drop (n - 1) = LS[n - 1] :: LS.drop n := by
    have h1 := List.drop_eq_getElem_cons hn1
    have h2 : n - 1 + 1 = n := by omega
    rw [h2] at h1
    exact h1
  have hbuflen : body.length + 1 ≤ w := by
    rw [hbody] at hlen
    simpa using hlen
  rw [hgetd, hbody]
  show tdoLoop w (k + 1 + 1) (cleanState LS a b n) = _
  rw [tdoLoop_step_pop w (k + 1) (cleanState LS a b n) (LS[n - 1]) (LS.drop n)
    (isBeyondRange_false_of_le _ (by simp [cleanState]; omega)) rfl
    (by simpa [cleanState] using hdrop) (by rw [hbody]; simp)]
  rw [tdoLoop_step_emit w k _ body
    (isBeyondRange_false_of_le _ (by simp [cleanState]; omega))
    (by simpa [cleanState] using hbody) hnl hbuflen
    (shouldOutput_true_of_in_range _ (by simpa [cleanState] using ha)
      (by simp [cleanState]; omega) (by simp [cleanState]; omega))]
  simp [cleanState]

/-- Skipping step: from a clean state at a pre-range line `n < a`, the
fast path pops and discards the line. -/
theorem tdoLoop_clean_skip (LS : List (List Char)) (a b w n k : Nat)
    (hwf : ∀ l ∈ LS, WfLine l) (hwlen : ∀ l ∈ LS, l.length ≤ w)
    (ha : 1 ≤ a) (hna : n < a) (hnb : n ≤ b) (hb : b ≤ LS.length)
    (hn1 : 1 ≤ n) :
    tdoLoop w (k + 2) (cleanState LS a b n) =
      tdoLoop w k (cleanState LS a b (n + 1)) := by
  have hlt : n - 1 < LS.length := by omega
  obtain ⟨body, hbody, hnl⟩ := hwf (LS[n - 1]) (LS.getElem_mem hlt)
  have hlen : LS[n - 1].length ≤ w := hwlen (LS[n - 1]) (LS.getElem_mem hlt)
  have hdrop : LS.drop (n - 1) = LS[n - 1] :: LS.drop n := by
    have h1 := List.drop_eq_getElem_cons hlt
    have h2 : n - 1 + 1 = n := by omega
    rw [h2] at h1
    exact h1
  have hbuflen : body.length + 1 ≤ w := by
    rw [hbody] at hlen
    simpa using hlen
  show tdoLoop w (k + 1 + 1) (cleanState LS a b n) = _
  rw [tdoLoop_step_pop w (k + 1) (cleanState LS a b n) (LS[n - 1]) (LS.drop n)
    (isBeyondRange_false_of_le _ (by simp [cleanState]; omega)) rfl
    (by simpa [cleanState] using hdrop) (by rw [hbody]; simp)]
  rw [tdoLoop_step_skip w k _ body
    (isBeyondRange_false_of_le _ (by simp [cleanState]; omega))
    (by simpa [cleanState] using hbody) hnl hbuflen
    (shouldOutput_false_of_before _ (by simpa [cleanState] using ha)
      (by simp [cleanState]; omega))]
  rfl

/-- Running the fast path from a clean state at line `n ≤ b` skips the
filtered lines and emits line `max n a`. -/
theorem tdoLoop_clean_run (LS : List (List Char)) (a b w : Nat)
    (hwf : ∀ l ∈ LS, WfLine l) (hwlen : ∀ l ∈ LS, l.length ≤ w)
    (ha : 1 ≤ a) (hab : a ≤ b) (hb : b ≤ LS.length) :
    ∀ (d n k : Nat), a - n = d → 1 ≤ n → n ≤ b → 2 * d + 2 ≤ k →
    tdoLoop w k (cleanState LS a b n) =
      ((LS.getD (max n a - 1) []).length, LS.getD (max n a - 1) [],
        cleanState LS a b (max n a + 1)) := by
  intro d
  induction d with
  | zero =>
      intro n k h0 hn1 hnb hk
      have han : a ≤ n := by omega
      have hmax : max n a = n := by omega
      obtain ⟨k', rfl⟩ : ∃ k', k = k' + 2 := ⟨k - 2, by omega⟩
      rw [hmax]
      exact tdoLoop_clean_emit LS a b w n k' hwf hwlen ha han hnb hb
  | succ d ih =>
      intro n k h0 hn1 hnb hk
      have hna : n < a := by omega
      have hmax : max n a = a := by omega
      have hmax2 : max (n + 1) a = a := by omega
      obtain ⟨k', rfl⟩ : ∃ k', k = k' + 2 := ⟨k - 2, by omega⟩
      rw [tdoLoop_clean_skip LS a b w n k' hwf hwlen ha hna hnb hb hn1]
      rw [ih (n + 1) k' (by omega) (by omega) (by omega) (by omega)]
      rw [hmax, hmax2]

/-- A list of nonempty lists has at least as many total elements as
lists. -/
theorem length_le_sum_lengths : ∀ (ls : List (List Char)),
    (∀ l ∈ ls, l ≠ []) → ls.length ≤ (ls.map List.length).sum := by
  intro ls
  induction ls with
  | nil => intro _; simp
  | cons l rest ih =>
      intro h
      have hl : l ≠ [] := h l (by simp)
      have hlen : 1 ≤ l.length := List.length_pos.mpr hl
      have := ih (fun x hx => h x (List.mem_cons_of_mem l hx))
      simp only [List.map_cons, List.sum_cons, List.length_cons]
      omega

/-- The loop fuel computed from the measure of a clean state covers the
skips up to the range start. -/
theorem measureF_clean_bound (LS : List (List Char)) (a b n : Nat)
    (hwf : ∀ l ∈ LS, WfLine l) (hn1 : 1 ≤ n) (hnb : n ≤ b)
    (hab : a ≤ b) (hb : b ≤ LS.length) :
    2 * (a - n) + 2 ≤ (cleanState LS a b n).measureF + 1 := by
  have hne : ∀ l ∈ LS.drop (n - 1), l ≠ [] := by
    intro l hl
    obtain ⟨body, hbody, _⟩ := hwf l (List.mem_of_mem_drop hl)
    rw [hbody]
    simp
  have hsum := length_le_sum_lengths (LS.drop (n - 1)) hne
  have hdlen : (LS.drop (n - 1)).length = LS.length - (n - 1) := by simp
  have hmeq : (cleanState LS a b n).measureF =
      ((LS.drop (n - 1)).map List.length).sum + (LS.drop (n - 1)).length := by
    simp [cleanState, LSState.measureF]
  rw [hmeq]
  omega

/-- A well-formed line stored in the list is nonempty. -/
theorem getD_line_length_pos (LS : List (List Char)) (m : Nat)
    (hwf : ∀ l ∈ LS, WfLine l) (hm : m < LS.length) :
    0 < (LS.getD m []).length := by
  rw [List.getD_eq_getElem LS [] hm]
  obtain ⟨body, hbody, _⟩ := hwf (LS[m]) (LS.getElem_mem hm)
  rw [hbody]
  simp

/-- One `read` from a clean state inside the range: exactly the next
in-range line is returned, whole. -/
theorem lsRead_clean_emit (LS : List (List Char)) (a b w n : Nat)
    (hwf : ∀ l ∈ LS, WfLine l) (hwlen : ∀ l ∈ LS, l.length ≤ w)
    (ha : 1 ≤ a) (hab : a ≤ b) (hb : b ≤ LS.length)
    (hn1 : 1 ≤ n) (hnb : n ≤ b) :
    lsRead (cleanState LS a b n) w =
      ((LS.getD (max n a - 1) []).length, LS.getD (max n a - 1) [],
        cleanState LS a b (max n a + 1)) := by
  have hrun := tdoLoop_clean_run LS a b w hwf hwlen ha hab hb (a - n) n
    ((cleanState LS a b n).measureF + 1) rfl hn1 hnb
    (measureF_clean_bound LS a b n hwf hn1 hnb hab hb)
  have hm1 : max n a - 1 < LS.length := by omega
  have hpos : 0 < (LS.getD (max n a - 1) []).length :=
    getD_line_length_pos LS (max n a - 1) hwf hm1
  unfold lsRead
  rw [show (cleanState LS a b n).pending = none from rfl]
  dsimp only
  rw [if_neg (show ¬ (cleanState LS a b n).isFinished = true from by
    rw [show (cleanState LS a b n).isFinished = false from rfl]; simp)]
  unfold tryDirectOutput
  rw [if_pos (show (cleanState LS a b n).lineAcc.isEmpty = true from rfl)]
  rw [hrun]
  dsimp only
  rw [if_pos (by omega)]

/-- One `read` from a clean state past the range end: zero bytes and the
stream finishes. -/
theorem lsRead_clean_beyond (LS : List (List Char)) (a b w n : Nat)
    (hb1 : 1 ≤ b) (hgt : b < n) :
    lsRead (cleanState LS a b n) w =
      (0, [], ⟨LS.drop (n - 1), [], [], none, true, n, a, b⟩) ∧
    lsDone (⟨LS.drop (n - 1), [], [], none, true, n, a, b⟩ : LSState) = true := by
  have hbey : (cleanState LS a b n).isBeyondRange = true :=
    isBeyondRange_true_of_gt _ (by simpa [cleanState] using hb1)
      (by simp [cleanState]; omega)
  constructor
  · unfold lsRead
    rw [show (cleanState LS a b n).pending = none from rfl]
    dsimp only
    rw [if_neg (show ¬ (cleanState LS a b n).isFinished = true from by
      rw [show (cleanState LS a b n).isFinished = false from rfl]; simp)]
    unfold tryDirectOutput
    rw [if_pos (show (cleanState LS a b n).lineAcc.isEmpty = true from rfl)]
    rw [tdoLoop_step_beyond w ((cleanState LS a b n).measureF) (cleanState LS a b n) hbey]
    dsimp only
    rw [if_neg (by omega)]
    unfold parseNextLine
    rw [if_pos (show ({ cleanState LS a b n with isFinished := true } :
      LSState).isBeyondRange = true from hbey)]
    rfl
  · rfl

/-- Driving `read` from a clean state returns exactly the remaining
in-range lines, one line per call and in order. -/
theorem readAll_clean (LS : List (List Char)) (a b w : Nat)
    (hwf : ∀ l ∈ LS, WfLine l) (hwlen : ∀ l ∈ LS, l.length ≤ w)
    (ha : 1 ≤ a) (hab : a ≤ b) (hb : b ≤ LS.length) :
    ∀ (c n fuel : Nat), 1 ≤ n → n ≤ b + 1 → b + 1 - max n a = c →
      c + 1 ≤ fuel →
      readAll w (cleanState LS a b n) fuel =
        (LS.drop (max n a - 1)).take (b + 1 - max n a) := by
  intro c
  induction c with
  | zero =>
      intro n fuel hn1 hnb1 hc hfuel
      have hn : n = b + 1 := by omega
      subst hn
      have hmax : max (b + 1) a = b + 1 := by omega
      obtain ⟨f, rfl⟩ : ∃ f, fuel = f + 1 := ⟨fuel - 1, by omega⟩
      unfold readAll
      rw [(lsRead_clean_beyond LS a b w (b + 1) (by omega) (by omega)).1]
      rw [hmax]
      simp
  | succ c ih =>
      intro n fuel hn1 hnb1 hc hfuel
      have hnb : n ≤ b := by omega
      have hmaxb : max n a ≤ b := by omega
      have hm1lt : max n a - 1 < LS.length := by omega
      have hpos : 0 < (LS.getD (max n a - 1) []).length :=
        getD_line_length_pos LS (max n a - 1) hwf hm1lt
      obtain ⟨f, rfl⟩ : ∃ f, fuel = f + 1 := ⟨fuel - 1, by omega⟩
      unfold readAll
      rw [lsRead_clean_emit LS a b w n hwf hwlen ha hab hb hn1 hnb]
      dsimp only
      rw [if_neg (by omega)]
      have hmax2 : max (max n a + 1) a = max n a + 1 := by omega
      rw [ih (max n a + 1) f (by omega) (by omega) (by rw [hmax2]; omega) (by omega)]
      rw [hmax2]
      have hdrop : LS.drop (max n a - 1) = LS[max n a - 1] :: LS.drop (max n a) := by
        have h1 := List.drop_eq_getElem_cons hm1lt
        have h2 : max n a - 1 + 1 = max n a := by omega
        rw [h2] at h1
        exact h1
      have htake : b + 1 - max n a = (b + 1 - (max n a + 1)) + 1 := by omega
      rw [hdrop, htake, List.take_succ_cons]
      rw [List.getD_eq_getElem LS [] hm1lt]
      have h3 : max n a + 1 - 1 = max n a := by omega
      rw [h3]

/-- Claim C2: for an archive of well-formed lines with at least `b` lines
and `1 ≤ a ≤ b`, a `LINE_RANGE [a, b]` `LineStream` (seeked to checkpoint
line `initial ≤ a`, its underlying `LINE_BYTES` stream delivering one
complete line per read) driven with buffers that fit every line yields
exactly the list of lines `a..b` of the decompressed stream: `b - a + 1`
lines, in increasing order, the `i`-th being line `a + i - 1`. -/
theorem c2_line_range_yields_exact_lines (LS : List (List Char))
    (a b initial w fuel : Nat)
    (hwf : ∀ l ∈ LS, WfLine l) (hwlen : ∀ l ∈ LS, l.length ≤ w)
    (ha : 1 ≤ a) (hab : a ≤ b) (hb : b ≤ LS.length)
    (hi1 : 1 ≤ initial) (hia : initial ≤ a)
    (hfuel : b + 2 - a ≤ fuel) :
    readAll w (lsInit (LS.drop (initial - 1)) a b initial) fuel =
      (LS.drop (a - 1)).take (b - a + 1) := by
  have hinit : lsInit (LS.drop (initial - 1)) a b initial =
      cleanState LS a b initial := rfl
  rw [hinit]
  have hmax : max initial a = a := by omega
  have := readAll_clean LS a b w hwf hwlen ha hab hb (b + 1 - a) initial fuel
    hi1 (by omega) (by rw [hmax]) (by omega)
  rw [this, hmax]
  congr 1
  omega

/-- Claim C2 witness: the file with lines `"[", "{a}", "{b}", "]"` read
over `LINE_RANGE [2, 3]` from checkpoint line 1. -/
theorem c2_line_range_yields_exact_lines_witness :
    readAll 10 (lsInit (([['[', '\n'], ['{', 'a', '}', '\n'],
        ['{', 'b', '}', '\n'], [']', '\n']] : List (List Char)).drop (1 - 1)) 2 3 1) 4 =
      (([['[', '\n'], ['{', 'a', '}', '\n'], ['{', 'b', '}', '\n'],
        [']', '\n']] : List (List Char)).drop (2 - 1)).take (3 - 2 + 1) :=
  c2_line_range_yields_exact_lines
    [['[', '\n'], ['{', 'a', '}', '\n'], ['{', 'b', '}', '\n'], [']', '\n']]
    2 3 1 10 4
    (by intro l hl
        simp only [List.mem_cons, List.not_mem_nil, or_false] at hl
        rcases hl with rfl | rfl | rfl | rfl
        · exact ⟨['['], rfl, by decide⟩
        · exact ⟨['{', 'a', '}'], rfl, by decide⟩
        · exact ⟨['{', 'b', '}'], rfl, by decide⟩
        · exact ⟨[']'], rfl, by decide⟩)
    (by intro l hl
        simp only [List.mem_cons, List.not_mem_nil, or_false] at hl
        rcases hl with rfl | rfl | rfl | rfl <;> decide)
    (by decide) (by decide) (by decide) (by decide) (by decide) (by decide)

/-! ## Claim C5 -/

/-- A successful `findIdx?` returns an index inside the list. -/
theorem findIdx?_lt_length (p : Char → Bool) :
    ∀ (l : List Char) (i : Nat), List.findIdx? p l = some i → i < l.length := by
  intro l
  induction l with
  | nil => intro i h; simp at h
  | cons c cs ih =>
      intro i h
      rw [List.findIdx?_cons] at h
      split_ifs at h with hp
      · obtain rfl : i = 0 := by simpa using h.symm
        simp
      · simp only [Nat.zero_add, List.findIdx?_succ] at h
        obtain ⟨j, hj, rfl⟩ := Option.map_eq_some'.mp h
        have := ih j hj
        simp
        omega

/-- The data invariant of every reachable `LineStream` state: a pending
line is nonempty, and a finished stream has no pending line. -/
def LSInv (s : LSState) : Prop :=
  (∀ r, s.pending = some r → r ≠ []) ∧
  (s.isFinished = true → s.pending = none)

/-- Postcondition of the end-of-stream handler of `parse_next_line`. -/
theorem parseEofFinal_post (s : LSState) :
    ((parseEofFinal s).1 = true →
       (∃ r, (parseEofFinal s).2.pending = some r ∧ r ≠ []) ∧
       (parseEofFinal s).2.isFinished = s.isFinished) ∧
    ((parseEofFinal s).1 = false →
       (parseEofFinal s).2.isFinished = true ∧
       (parseEofFinal s).2.pending = s.pending) ∧
    (∀ c ∈ (parseEofFinal s).2.chunks, c ∈ s.chunks) ∧
    (s.isBeyondRange = true → (parseEofFinal s).1 = false) := by
  unfold parseEofFinal
  dsimp only
  split_ifs with h1 h2
  · refine ⟨?_, ?_, ?_, ?_⟩
    · intro _
      refine ⟨⟨s.lineAcc, by simp, ?_⟩, by simp⟩
      intro hnil
      exact h1.2 (by simp [hnil])
    · intro hfalse
      simp at hfalse
    · intro c hc
      simpa using hc
    · intro hbey
      exact absurd hbey (by simpa using h2.2)
  · refine ⟨?_, ?_, ?_, ?_⟩
    · intro htrue
      simp at htrue
    · intro _
      simp
    · intro c hc
      simpa using hc
    · intro _
      simp
  · refine ⟨?_, ?_, ?_, ?_⟩
    · intro htrue
      simp at htrue
    · intro _
      simp
    · intro c hc
      simpa using hc
    · intro _
      simp

/-- Postcondition of the refill/scan loop of `parse_next_line`, for any
fuel above the loop measure: a `true` result has installed a nonempty
pending line without touching `is_finished_`; a `false` result has set
`is_finished_` and left the pending line untouched; chunks are only
consumed; and past the end of the range the loop never reports a line. -/
theorem parseLoop_post : ∀ (fuel : Nat) (s : LSState), s.measureF < fuel →
    ((parseLoop fuel s).1 = true →
       (∃ r, (parseLoop fuel s).2.pending = some r ∧ r ≠ []) ∧
       (parseLoop fuel s).2.isFinished = s.isFinished) ∧
    ((parseLoop fuel s).1 = false →
       (parseLoop fuel s).2.isFinished = true ∧
       (parseLoop fuel s).2.pending = s.pending) ∧
    (∀ c ∈ (parseLoop fuel s).2.chunks, c ∈ s.chunks) ∧
    (s.isBeyondRange = true → (parseLoop fuel s).1 = false) := by
  intro fuel
  induction fuel with
  | zero =>
      intro s hm
      exact absurd hm (Nat.not_lt_zero _)
  | succ fuel ih =>
      intro s hm
      obtain ⟨chunks, buf, lineAcc, pending, fin, cur, sl, el⟩ := s
      rw [parseLoop]
      cases buf with
      | nil =>
          cases chunks with
          | nil =>
              dsimp only
              exact parseEofFinal_post _
          | cons c rest =>
              dsimp only
              by_cases hce : c.isEmpty = true
              · rw [if_pos hce]
                have hpost := parseEofFinal_post
                  (⟨rest, c, lineAcc, pending, fin, cur, sl, el⟩ : LSState)
                refine ⟨hpost.1, hpost.2.1, ?_, hpost.2.2.2⟩
                intro x hx
                exact List.mem_cons_of_mem c (hpost.2.2.1 x hx)
              · rw [if_neg hce]
                have hm' : (⟨rest, c, lineAcc, pending, fin, cur, sl, el⟩ :
                    LSState).measureF < fuel := by
                  simp only [LSState.measureF] at hm ⊢
                  simp at hm ⊢
                  omega
                have hrec := ih _ hm'
                refine ⟨hrec.1, hrec.2.1, ?_, hrec.2.2.2⟩
                intro x hx
                exact List.mem_cons_of_mem c (hrec.2.2.1 x hx)
      | cons bb bs =>
          dsimp only
          cases hf : List.findIdx? (fun ch => ch = '\n') (bb :: bs) with
          | none =>
              dsimp only
              have hm' : (⟨chunks, [], lineAcc ++ bb :: bs, pending, fin, cur, sl, el⟩ :
                  LSState).measureF < fuel := by
                simp only [LSState.measureF] at hm ⊢
                simp at hm ⊢
                omega
              exact ih _ hm'
          | some i =>
              have hi := findIdx?_lt_length (fun ch => ch = '\n') (bb :: bs) i hf
              dsimp only
              split_ifs with hbey hout hacc
              · have hm' : (⟨chunks, (bb :: bs).drop (i + 1), [], pending, true, cur, sl, el⟩ :
                    LSState).measureF < fuel := by
                  simp only [LSState.measureF] at hm ⊢
                  simp only [List.length_cons] at hi
                  simp at hm ⊢
                  omega
                have hrec := ih _ hm'
                have hbey2 : (⟨chunks, (bb :: bs).drop (i + 1), [], pending, true, cur, sl, el⟩ :
                    LSState).isBeyondRange = true := hbey
                have hfalse := hrec.2.2.2 hbey2
                exact ⟨fun htrue => absurd (hfalse ▸ htrue) (by simp),
                  fun _ => ⟨(hrec.2.1 hfalse).1, (hrec.2.1 hfalse).2⟩,
                  fun x hx => hrec.2.2.1 x hx,
                  fun _ => hfalse⟩
              · exact ⟨fun _ => ⟨⟨_, rfl, by simp⟩, rfl⟩,
                  fun hfalse => absurd hfalse (by simp),
                  fun x hx => hx,
                  fun hD => absurd hD hbey⟩
              · exact ⟨fun _ => ⟨⟨_, rfl, by simp [hacc]⟩, rfl⟩,
                  fun hfalse => absurd hfalse (by simp),
                  fun x hx => hx,
                  fun hD => absurd hD hbey⟩
              · have hm' : (⟨chunks, (bb :: bs).drop (i + 1), [], pending, fin, cur + 1, sl, el⟩ :
                    LSState).measureF < fuel := by
                  simp only [LSState.measureF] at hm ⊢
                  simp only [List.length_cons] at hi
                  simp at hm ⊢
                  omega
                have hrec := ih _ hm'
                exact ⟨fun h => hrec.1 h, fun h => hrec.2.1 h,
                  fun x hx => hrec.2.2.1 x hx, fun hD => absurd hD hbey⟩

/-- Postcondition of the `try_direct_output` loop: it never touches the
pending line or the accumulator, only consumes underlying chunks, leaves
`is_finished_` alone whenever it outputs bytes, and changes `is_finished_`
only for a state past the end of the range. -/
theorem tdoLoop_post (w : Nat) : ∀ (fuel : Nat) (s : LSState),
    (tdoLoop w fuel s).2.2.pending = s.pending ∧
    (tdoLoop w fuel s).2.2.lineAcc = s.lineAcc ∧
    (∀ c ∈ (tdoLoop w fuel s).2.2.chunks, c ∈ s.chunks) ∧
    (0 < (tdoLoop w fuel s).1 → (tdoLoop w fuel s).2.2.isFinished = s.isFinished) ∧
    ((tdoLoop w fuel s).2.2.isFinished ≠ s.isFinished →
      (tdoLoop w fuel s).2.2.isBeyondRange = true) := by
  intro fuel
  induction fuel with
  | zero =>
      intro s
      exact ⟨rfl, rfl, fun c hc => hc, fun h => absurd h (Nat.lt_irrefl 0),
        fun h => absurd rfl h⟩
  | succ fuel ih =>
      intro s
      obtain ⟨chunks, buf, lineAcc, pending, fin, cur, sl, el⟩ := s
      rw [tdoLoop]
      by_cases hbey : (⟨chunks, buf, lineAcc, pending, fin, cur, sl, el⟩ :
          LSState).isBeyondRange = true
      · rw [if_pos hbey]
        exact ⟨rfl, rfl, fun c hc => hc, fun h => absurd h (Nat.lt_irrefl 0),
          fun _ => hbey⟩
      · rw [if_neg hbey]
        cases buf with
        | nil =>
            cases chunks with
            | nil =>
                exact ⟨rfl, rfl, fun c hc => hc, fun h => absurd h (Nat.lt_irrefl 0),
                  fun h => absurd rfl h⟩
            | cons c rest =>
                dsimp only
                by_cases hce : c.isEmpty = true
                · rw [if_pos hce]
                  exact ⟨rfl, rfl, fun x hx => List.mem_cons_of_mem c hx,
                    fun h => absurd h (Nat.lt_irrefl 0), fun h => absurd rfl h⟩
                · rw [if_neg hce]
                  have hrec := ih (⟨rest, c, lineAcc, pending, fin, cur, sl, el⟩ : LSState)
                  exact ⟨hrec.1, hrec.2.1, fun x hx => List.mem_cons_of_mem c (hrec.2.2.1 x hx),
                    fun h => hrec.2.2.2.1 h, fun h => hrec.2.2.2.2 h⟩
        | cons b bs =>
            dsimp only
            cases hf : List.findIdx? (fun ch => ch = '\n') (b :: bs) with
            | none =>
                dsimp only
                exact ⟨rfl, rfl, fun c hc => hc, fun h => absurd h (Nat.lt_irrefl 0),
                  fun h => absurd rfl h⟩
            | some i =>
                dsimp only
                split_ifs with hlen hout
                · exact ⟨rfl, rfl, fun c hc => hc, fun h => absurd h (Nat.lt_irrefl 0),
                    fun h => absurd rfl h⟩
                · exact ⟨rfl, rfl, fun c hc => hc, fun _ => rfl, fun h => absurd rfl h⟩
                · have hrec := ih (⟨chunks, (b :: bs).drop (i + 1), lineAcc, pending, fin,
                    cur + 1, sl, el⟩ : LSState)
                  exact ⟨hrec.1, hrec.2.1, fun x hx => hrec.2.2.1 x hx,
                    fun h => hrec.2.2.2.1 h, fun h => hrec.2.2.2.2 h⟩

/-- The postcondition of `try_direct_output` itself: same as the loop's. -/
theorem tryDirectOutput_post (w : Nat) (s : LSState) :
    (tryDirectOutput w s).2.2.pending = s.pending ∧
    (tryDirectOutput w s).2.2.lineAcc = s.lineAcc ∧
    (∀ c ∈ (tryDirectOutput w s).2.2.chunks, c ∈ s.chunks) ∧
    (0 < (tryDirectOutput w s).1 → (tryDirectOutput w s).2.2.isFinished = s.isFinished) ∧
    ((tryDirectOutput w s).2.2.isFinished ≠ s.isFinished →
      (tryDirectOutput w s).2.2.isBeyondRange = true) := by
  unfold tryDirectOutput
  split_ifs with h
  · exact tdoLoop_post w (s.measureF + 1) s
  · exact ⟨rfl, rfl, fun c hc => hc, fun _ => rfl, fun h0 => absurd rfl h0⟩

/-- Postcondition of `parse_next_line`: `true` installs a nonempty pending
line leaving `is_finished_` alone; `false` sets `is_finished_` and leaves
the pending line alone; past the end of the range the answer is `false`. -/
theorem parseNextLine_post (s : LSState) :
    ((parseNextLine s).1 = true →
       (∃ r, (parseNextLine s).2.pending = some r ∧ r ≠ []) ∧
       (parseNextLine s).2.isFinished = s.isFinished) ∧
    ((parseNextLine s).1 = false →
       (parseNextLine s).2.isFinished = true ∧
       (parseNextLine s).2.pending = s.pending) ∧
    (s.isBeyondRange = true → (parseNextLine s).1 = false) := by
  unfold parseNextLine
  split_ifs with hbey
  · exact ⟨fun ht => absurd ht (by simp), fun _ => ⟨rfl, rfl⟩, fun _ => rfl⟩
  · have h := parseLoop_post (s.measureF + 1) s (Nat.lt_succ_self _)
    exact ⟨h.1, h.2.1, fun hB => absurd hB hbey⟩

/-- Postcondition of `output_pending_line` on a nonempty pending line of
an unfinished stream: the invariant is maintained, and with a buffer of at
least one byte it writes at least one byte and leaves the stream not
`done()`. -/
theorem outputPendingLine_post (s : LSState) (rest : List Char) (w : Nat)
    (hne : rest ≠ []) (hfin : s.isFinished = false) :
    LSInv (outputPendingLine s rest w).2.2 ∧
    (1 ≤ w → (outputPendingLine s rest w).1 ≠ 0 ∧
      lsDone (outputPendingLine s rest w).2.2 = false) := by
  unfold outputPendingLine
  dsimp only
  rw [if_neg (by simpa using hne)]
  split_ifs with hdrop
  · refine ⟨⟨fun r hr => by simp at hr, fun _ => by simp⟩, fun hw => ⟨?_, ?_⟩⟩
    · intro h0
      rcases Nat.min_eq_zero_iff.mp h0 with h | h
      · exact hne (List.length_eq_zero.mp h)
      · omega
    · simp [lsDone, hfin]
  · refine ⟨⟨?_, ?_⟩, fun hw => ⟨?_, ?_⟩⟩
    · intro r hr
      have hdr : rest.drop (min rest.length w) = r := by simpa using hr
      intro hrnil
      apply hdrop
      rw [hdr, hrnil]
      rfl
    · intro hf
      exact absurd hf (by simp [hfin])
    · intro h0
      rcases Nat.min_eq_zero_iff.mp h0 with h | h
      · exact hne (List.length_eq_zero.mp h)
      · omega
    · simp [lsDone]

/-- One `read` call preserves the `LineStream` invariant, and — for a
caller buffer of at least one byte — returns 0 exactly when `done()` holds
on the resulting state. -/
theorem lsRead_inv_and_iff (s : LSState) (w : Nat) (hinv : LSInv s) :
    LSInv (lsRead s w).2.2 ∧
    (1 ≤ w → ((lsRead s w).1 = 0 ↔ lsDone (lsRead s w).2.2 = true)) := by
  unfold lsRead
  cases hp : s.pending with
  | some rest =>
      dsimp only
      have hfin : s.isFinished = false := by
        cases hb : s.isFinished
        · rfl
        · rw [hinv.2 hb] at hp; cases hp
      have h := outputPendingLine_post s rest w (hinv.1 rest hp) hfin
      exact ⟨h.1, fun hw => iff_of_false (h.2 hw).1 (by simp [(h.2 hw).2])⟩
  | none =>
      dsimp only
      by_cases hfin : s.isFinished = true
      · rw [if_pos hfin]
        exact ⟨⟨fun r hr => absurd (hp ▸ hr) (by simp), fun _ => hp⟩,
          fun _ => iff_of_true rfl (by simp [lsDone, hfin, hp])⟩
      · rw [if_neg hfin]
        have hfin' : s.isFinished = false := by
          cases hb : s.isFinished
          · rfl
          · exact absurd hb hfin
        have htd := tryDirectOutput_post w s
        by_cases hr : 0 < (tryDirectOutput w s).1
        · rw [if_pos hr]
          have hpend : (tryDirectOutput w s).2.2.pending = none := htd.1.trans hp
          have hfe : (tryDirectOutput w s).2.2.isFinished = s.isFinished := htd.2.2.2.1 hr
          refine ⟨⟨fun r0 hr0 => absurd (hpend ▸ hr0) (by simp), fun _ => hpend⟩, fun hw => ?_⟩
          exact iff_of_false (by omega) (by simp [lsDone, hpend, hfe, hfin'])
        · rw [if_neg hr]
          have hpend : (tryDirectOutput w s).2.2.pending = none := htd.1.trans hp
          have hpn := parseNextLine_post (tryDirectOutput w s).2.2
          by_cases hprt : (parseNextLine (tryDirectOutput w s).2.2).1 = true
          · rw [if_pos hprt]
            obtain ⟨⟨rr, hrr, hrrne⟩, hfe⟩ := hpn.1 hprt
            have hsfin : (parseNextLine (tryDirectOutput w s).2.2).2.isFinished = false := by
              rw [hfe]
              by_cases hne : (tryDirectOutput w s).2.2.isFinished = s.isFinished
              · rw [hne, hfin']
              · have hbey2 := htd.2.2.2.2 hne
                have hff := hpn.2.2 hbey2
                rw [hff] at hprt
                exact absurd hprt (by simp)
            rw [hrr]
            dsimp only
            have h := outputPendingLine_post (parseNextLine (tryDirectOutput w s).2.2).2
              rr w hrrne hsfin
            exact ⟨h.1, fun hw => iff_of_false (h.2 hw).1 (by simp [(h.2 hw).2])⟩
          · rw [if_neg hprt]
            have hfalse : (parseNextLine (tryDirectOutput w s).2.2).1 = false := by
              cases hb : (parseNextLine (tryDirectOutput w s).2.2).1
              · rfl
              · exact absurd hb hprt
            obtain ⟨hfin2, hpe⟩ := hpn.2.1 hfalse
            have hpend2 : (parseNextLine (tryDirectOutput w s).2.2).2.pending = none :=
              hpe.trans hpend
            exact ⟨⟨fun r0 hr0 => absurd (hpend2 ▸ hr0) (by simp), fun _ => hpend2⟩,
              fun _ => iff_of_true rfl (by simp [lsDone, hfin2, hpend2])⟩

/-- The `LineStream` states reachable from a freshly constructed stream by
any sequence of `read` calls with arbitrary per-call buffer capacities. -/
inductive LSReachable : LSState → Prop
  | base (chunks : List (List Char)) (startLine endLine initialLine : Nat) :
      LSReachable (lsInit chunks startLine endLine initialLine)
  | step (s : LSState) (w : Nat) : LSReachable s → LSReachable (lsRead s w).2.2

/-- Every reachable `LineStream` state satisfies the data invariant. -/
theorem LSReachable_inv (s : LSState) (h : LSReachable s) : LSInv s := by
  induction h with
  | base chunks sl el il =>
      exact ⟨fun r hr => by simp [lsInit] at hr, fun _ => rfl⟩
  | step s w hs ih => exact (lsRead_inv_and_iff s w ih).1

/-- C5 (amended): for `LineStream`, from every reachable stream state a
`read` into a buffer of at least one byte returns 0 if and only if
`done()` is true after that same call.  (The original claim, quantified
over every stream, fails for `MultiLineStream` — see the
counterexample.) -/
theorem c5_linestream_read_zero_iff_done (s : LSState) (w : Nat)
    (hs : LSReachable s) (hw : 1 ≤ w) :
    ((lsRead s w).1 = 0 ↔ lsDone (lsRead s w).2.2 = true) :=
  (lsRead_inv_and_iff s w (LSReachable_inv s hs)).2 hw

/-- Witness for C5: a freshly constructed single-line `LineStream` is
reachable, the buffer bound holds at capacity 8, and that first read in
fact returns the 3 bytes of the line. -/
theorem c5_linestream_read_zero_iff_done_witness :
    ((lsRead (lsInit [['h', 'i', '\n']] 0 0 1) 8).1 = 0 ↔
      lsDone (lsRead (lsInit [['h', 'i', '\n']] 0 0 1) 8).2.2 = true) ∧
    (lsRead (lsInit [['h', 'i', '\n']] 0 0 1) 8).1 = 3 :=
  ⟨c5_linestream_read_zero_iff_done (lsInit [['h', 'i', '\n']] 0 0 1) 8
    (LSReachable.base [['h', 'i', '\n']] 0 0 1) (by decide), by decide⟩

/-- C5 counterexample: a freshly constructed `MultiLineStream` (hence a
reachable state) whose caller buffer (3 bytes) is smaller than the next
line plus its newline returns 0 bytes from `read` while `done()` stays
false. -/
theorem c5_counterexample :
    (mlsRead (mlsInit [['h', 'e', 'l', 'l', 'o', '\n'],
        ['w', 'o', 'r', 'l', 'd', '\n']] 0 0 1) 3).1 = 0 ∧
    mlsDone (mlsRead (mlsInit [['h', 'e', 'l', 'l', 'o', '\n'],
        ['w', 'o', 'r', 'l', 'd', '\n']] 0 0 1) 3).2.2 = false := by
  decide

/-- C2 counterexample: `MultiLineStream` over the archive lines
"aaaa\n", "bbbb\n" with line range [1, 2] and a 7-byte caller buffer
(large enough for either line) yields only line 1: the first `read`
returns the 5 bytes of line 1 and stashes line 2 in the accumulator
because 5 + 4 + 1 exceeds the buffer, `handle_final_line` cannot place it
either (5 + 4 > 7), and `update_finish_state` finishes the stream since
the underlying stream is exhausted — the next `read` returns 0 with
`done()` true and line 2 is never delivered. -/
theorem c2_counterexample :
    (mlsRead (mlsInit [['a', 'a', 'a', 'a', '\n'],
        ['b', 'b', 'b', 'b', '\n']] 1 2 1) 7).2.1 = ['a', 'a', 'a', 'a', '\n'] ∧
    mlsDone (mlsRead (mlsInit [['a', 'a', 'a', 'a', '\n'],
        ['b', 'b', 'b', 'b', '\n']] 1 2 1) 7).2.2 = true ∧
    (mlsRead (mlsRead (mlsInit [['a', 'a', 'a', 'a', '\n'],
        ['b', 'b', 'b', 'b', '\n']] 1 2 1) 7).2.2 7).1 = 0 := by
  decide

end DFTracer
